import Mathlib

/-!
Verification of the OpenGreek TLG scraping pipeline.

Shallow embedding of the pure cores of the repository's Python scripts:

* `GreekTextFilter.separate_greek_from_metadata`
  (src/OpenGreek/tlg_corrected_extractor.py)
* `TLGReferenceParser.parse_url_reference`, `build_traditional_citation`,
  `TLGValidationSystem.validate_greek_content`, `validate_extraction`,
  `TLGReferencePreserver.create_reference_from_discovery`
  (src/OpenGreek/tlg_reference_preservation.py)
* `normalise_author_index`, `_collect_works`, `generate_coverage_csv`
  (src/OpenGreek/author_catalog_tools.py)
* `TLGDiscovery.discover_author_works`, `fetch_page`
  (src/OpenGreek/discover_tlg.py, mirrored in tlg_integrated_extractor.py)

Python strings are modelled as `List Char` (Unicode code points), floats
arising from ratio comparisons as exact rationals (the comparisons
`ratio > 0.5`, `ratio < 0.1`, `ratio >= 0.2` are decided as the exact
rational comparisons they round to at the list lengths that occur), and
the network as an explicit oracle argument.
-/

namespace OpenGreek

/-- Membership of a code point in the two Greek Unicode ranges used
throughout the repository: U+0370..U+03FF and U+1F00..U+1FFF
(the Python tests are `'Ͱ' <= c <= 'Ͽ'` etc., i.e. code-point
comparisons). -/
def isGreekChar (c : Char) : Bool :=
  (0x370 ≤ c.toNat && c.toNat ≤ 0x3FF) || (0x1F00 ≤ c.toNat && c.toNat ≤ 0x1FFF)

/-- The Unicode whitespace set stripped by Python's `str.strip()`. -/
def isPySpace (c : Char) : Bool :=
  c.toNat ∈ [0x9, 0xA, 0xB, 0xC, 0xD, 0x1C, 0x1D, 0x1E, 0x1F, 0x20,
    0x85, 0xA0, 0x1680, 0x2000, 0x2001, 0x2002, 0x2003, 0x2004, 0x2005,
    0x2006, 0x2007, 0x2008, 0x2009, 0x200A, 0x2028, 0x2029, 0x202F,
    0x205F, 0x3000]

/-- Python `str.strip()`: drop leading and trailing whitespace. -/
def pyStrip (l : List Char) : List Char :=
  ((l.dropWhile isPySpace).reverse.dropWhile isPySpace).reverse

/-- Python `str.split('\n')`: split on every newline (an empty string
yields one empty line, `n` newlines yield `n+1` lines). -/
def splitLines : List Char → List (List Char)
  | [] => [[]]
  | c :: rest =>
    match splitLines rest with
    | [] => [[c]]
    | h :: t => if c = '\n' then [] :: h :: t else (c :: h) :: t

/-- Python `'\n'.join(lines)`. -/
def joinLines (ls : List (List Char)) : List Char :=
  List.intercalate ['\n'] ls

/-- Search a string for a position where `here` matches (the semantics of
`re.search`: try every suffix, leftmost first). -/
def searchFrom (here : List Char → Bool) : List Char → Bool
  | [] => here []
  | c :: t => here (c :: t) || searchFrom here t

/-- Case-sensitive substring test (`re.search` of a literal pattern). -/
def containsSub (pat : List Char) (s : List Char) : Bool :=
  searchFrom (fun suf => pat.isPrefixOf suf) s

/-- ASCII decimal digit, the `\d` class of the repository's regexes. -/
def isDigitChar (c : Char) : Bool :=
  0x30 ≤ c.toNat && c.toNat ≤ 0x39

/-- After the literal `tlg ` of the pattern `TLG \d+ \d+ ::` (lower-cased):
one or more digits, a space, one or more digits, then ` ::`.  The `\d+`
groups are each followed by a non-digit in the pattern, so greedy matching
is maximal-run matching. -/
def tlgDigitsPart (s : List Char) : Bool :=
  match s with
  | c :: t =>
    isDigitChar c &&
      (match t.dropWhile isDigitChar with
       | d :: t2 =>
         d == ' ' &&
           (match t2 with
            | e :: t3 =>
              isDigitChar e &&
                (String.data " ::").isPrefixOf (t3.dropWhile isDigitChar)
            | [] => false)
       | [] => false)
  | [] => false

/-- Matcher for `TLG \d+ \d+ ::` anchored at the current position
(the line is already lower-cased, `re.IGNORECASE`). -/
def tlgRefHere (s : List Char) : Bool :=
  (String.data "tlg ").isPrefixOf s && tlgDigitsPart (s.drop 4)

/-- Backtracking search for `[^)]*` followed by the literal `tail`:
either `tail` matches here, or the next character is not `)` and we
continue. -/
def seekClose (tail : List Char) : List Char → Bool
  | [] => tail.isPrefixOf []
  | c :: t => tail.isPrefixOf (c :: t) || (c != ')' && seekClose tail t)

/-- Matcher for `\([^)]*TAIL` anchored at the current position. -/
def parenHere (tail : List Char) (s : List Char) : Bool :=
  match s with
  | c :: t => c == '(' && seekClose tail t
  | [] => false

/-- `GreekTextFilter.metadata_patterns` applied with `re.search` and
`re.IGNORECASE` (tlg_corrected_extractor.py lines 49-82).  All pattern
literals are ASCII, so case-insensitivity is realised by ASCII-lower-casing
the line (`Char.toLower`) and matching lower-cased literals. -/
def isMetadataLine (line : List Char) : Bool :=
  let low := line.map Char.toLower
  searchFrom tlgRefHere low ||
  containsSub (String.data "source:") low ||
  containsSub (String.data "citation:") low ||
  containsSub (String.data "cf. et") low ||
  containsSub (String.data "scholia:") low ||
  containsSub (String.data "vitae:") low ||
  searchFrom (parenHere (String.data "b.c.)")) low ||
  searchFrom (parenHere (String.data "a.d.)")) low ||
  containsSub (String.data "oxford:") low ||
  containsSub (String.data "leipzig:") low ||
  containsSub (String.data "teubner") low ||
  containsSub (String.data "clarendon press") low

/-- Classification of one (stripped, non-empty) line by
`separate_greek_from_metadata`. -/
inductive LineKind where
  | greek
  | metadata
  deriving DecidableEq, Repr

/-- The per-line branch of `separate_greek_from_metadata`
(tlg_corrected_extractor.py lines 77-98).  `greek_ratio > 0.5` for a line
of length `t` with `g` Greek characters is the exact comparison `2*g > t`,
and `greek_ratio < 0.1` is `10*g < t`. -/
def classifyLine (line : List Char) : LineKind :=
  let is_metadata := isMetadataLine line
  let greek_chars := line.countP isGreekChar
  let total_chars := line.length
  if total_chars < 2 * greek_chars && !is_metadata && decide (20 < total_chars) then
    .greek
  else if is_metadata || decide (10 * greek_chars < total_chars) then
    .metadata
  else
    .greek

/-- Strip each line, drop empty lines, and classify the remainder,
returning `(greek_lines, metadata_lines)` in input order. -/
def classifyLines : List (List Char) → List (List Char) × List (List Char)
  | [] => ([], [])
  | l :: rest =>
    let s := pyStrip l
    let r := classifyLines rest
    if s.isEmpty then r
    else
      match classifyLine s with
      | .greek => (s :: r.1, r.2)
      | .metadata => (r.1, s :: r.2)

/-- Result dictionary of `separate_greek_from_metadata`; the intermediate
line lists are kept alongside the joined strings the Python code returns. -/
structure SeparateResult where
  greek_lines : List (List Char)
  metadata_lines : List (List Char)
  greek_text : List Char
  metadata : List Char
  mixed_content : List Char
  deriving Repr

/-- `GreekTextFilter.separate_greek_from_metadata`
(tlg_corrected_extractor.py lines 64-104). -/
def separate_greek_from_metadata (mixed_text : List Char) : SeparateResult :=
  let (gs, ms) := classifyLines (splitLines mixed_text)
  { greek_lines := gs
    metadata_lines := ms
    greek_text := joinLines gs
    metadata := joinLines ms
    mixed_content := mixed_text }

/-- Consume exactly `n` decimal digits (`\d{n}`), returning them and the
rest of the input. -/
def takeDigits : Nat → List Char → Option (List Char × List Char)
  | 0, s => some ([], s)
  | _ + 1, [] => none
  | n + 1, c :: s =>
    if isDigitChar c then (takeDigits n s).map (fun p => (c :: p.1, p.2)) else none

/-- Consume a literal, returning the rest of the input. -/
def dropLit (lit : List Char) (s : List Char) : Option (List Char) :=
  if lit.isPrefixOf s then some (s.drop lit.length) else none

/-- Match `/TLG(\d{4})/\d{4}SEP(\d{3})\.htm` anchored at the current
position, returning the two capture groups (`sep` is `_` or `%5F`);
each component either consumes its part of the input or fails the whole
match. -/
def matchRefHere (sep : List Char) (s : List Char) : Option (List Char × List Char) :=
  (dropLit (String.data "/TLG") s).bind fun s1 =>
  (takeDigits 4 s1).bind fun p =>
  (dropLit ['/'] p.2).bind fun s3 =>
  (takeDigits 4 s3).bind fun q =>
  (dropLit sep q.2).bind fun s5 =>
  (takeDigits 3 s5).bind fun r =>
  (dropLit (String.data ".htm") r.2).map fun _ => (p.1, r.1)

/-- `re.search` of the reference pattern: try every position, leftmost
first. -/
def searchRef (sep : List Char) : List Char → Option (List Char × List Char)
  | [] => matchRefHere sep []
  | c :: t =>
    match matchRefHere sep (c :: t) with
    | some r => some r
    | none => searchRef sep t

/-- `TLGReferenceParser.parse_url_reference`
(tlg_reference_preservation.py lines 138-161): try the plain-underscore
pattern, then the `%5F` pattern, else raise `ValueError`. -/
def parse_url_reference (url : List Char) :
    Except (List Char) (List Char × List Char) :=
  match searchRef ['_'] url with
  | some r => .ok r
  | none =>
    match searchRef (String.data "%5F") url with
    | some r => .ok r
    | none => .error (String.data "Cannot parse TLG reference from URL: " ++ url)

/-- Structural statement that a URL contains an occurrence of the pattern
`/TLG(\d{4})/\d{4}SEP(\d{3})\.htm`, written without reference to the
matcher: an explicit decomposition into surrounding text and digit
groups. -/
def HasRef (sep : List Char) (s : List Char) : Prop :=
  ∃ pre a e w post,
    s = pre ++ String.data "/TLG" ++ a ++ ['/'] ++ e ++ sep ++ w ++
          String.data ".htm" ++ post ∧
    a.length = 4 ∧ (∀ c ∈ a, isDigitChar c = true) ∧
    e.length = 4 ∧ (∀ c ∈ e, isDigitChar c = true) ∧
    w.length = 3 ∧ (∀ c ∈ w, isDigitChar c = true)

/-- `TLG_ABBREVIATIONS` (tlg_reference_preservation.py lines 26-45):
traditional author abbreviations keyed by TLG author id. -/
def TLG_ABBREVIATIONS : List (String × String) :=
  [("0012", "Hom."), ("0059", "Pl."), ("0086", "Arist."), ("0011", "Soph."),
   ("0006", "Eur."), ("0007", "Aesch."), ("0016", "Hdt."), ("0003", "Th."),
   ("0087", "Dem."), ("0014", "Xen."), ("0017", "Isoc."), ("0020", "Lys."),
   ("0028", "Isae."), ("0030", "Lyc."), ("0031", "Hyp."), ("0032", "Din."),
   ("0040", "Andr.")]

/-- Entry of `WORK_MAPPINGS`; the source's `abbrev` key is called `abbr`
here (`abbrev` is a Lean keyword). -/
structure WorkInfo where
  title : String
  abbr : String
  genre : String
  deriving Repr, DecidableEq

/-- `WORK_MAPPINGS` (tlg_reference_preservation.py lines 48-66). -/
def WORK_MAPPINGS : List (String × List (String × WorkInfo)) :=
  [("0012",
    [("001", ⟨"Iliad", "Il.", "Epic Poetry"⟩),
     ("002", ⟨"Odyssey", "Od.", "Epic Poetry"⟩)]),
   ("0059",
    [("030", ⟨"Republic", "R.", "Philosophy"⟩),
     ("003", ⟨"Phaedo", "Phd.", "Philosophy"⟩),
     ("004", ⟨"Meno", "Men.", "Philosophy"⟩),
     ("021", ⟨"Apology", "Ap.", "Philosophy"⟩)]),
   ("0086",
    [("035", ⟨"Metaphysics", "Metaph.", "Philosophy"⟩),
     ("087", ⟨"Nicomachean Ethics", "EN", "Ethics"⟩),
     ("001", ⟨"Categories", "Cat.", "Logic"⟩)])]

/-- `TLGReferenceParser.build_traditional_citation`
(tlg_reference_preservation.py lines 163-173). -/
def build_traditional_citation (author_id work_id : String) : String :=
  let author_abbrev := (TLG_ABBREVIATIONS.lookup author_id).getD ("TLG" ++ author_id)
  match (WORK_MAPPINGS.lookup author_id).bind (fun m => m.lookup work_id) with
  | some work_info => author_abbrev ++ " " ++ work_info.abbr
  | none => author_abbrev ++ " " ++ work_id

/-- The `TLGReference` dataclass (tlg_reference_preservation.py
lines 69-98). -/
structure TLGReference where
  author_id : String
  author_name : String
  author_description : String
  period : String
  location : String
  work_id : String
  work_title : String
  work_genre : String
  url : String
  traditional_citation : String
  traditional_abbreviation : String
  extraction_date : String
  deriving Repr, DecidableEq

/-- The fields of `author_data` read by `create_reference_from_discovery`;
optional fields are accessed with `.get(key, '')`. -/
structure AuthorData where
  tlg_id : String
  name : String
  description : Option String
  period : Option String
  location : Option String
  deriving Repr

/-- The fields of `work_data` read by `create_reference_from_discovery`. -/
structure WorkData where
  work_id : String
  title : Option String
  url : String
  deriving Repr

/-- `TLGReferencePreserver.create_reference_from_discovery`
(tlg_reference_preservation.py lines 336-367); `now` stands for
`datetime.now().isoformat()`. -/
def create_reference_from_discovery (author_data : AuthorData)
    (work_data : WorkData) (now : String) : TLGReference :=
  let author_id := author_data.tlg_id
  let work_id := work_data.work_id
  let traditional_citation := build_traditional_citation author_id work_id
  let work_title0 := work_data.title.getD ("Work " ++ work_id)
  let titleGenre :=
    match (WORK_MAPPINGS.lookup author_id).bind (fun m => m.lookup work_id) with
    | some work_info => (work_info.title, work_info.genre)
    | none => (work_title0, "Unknown")
  { author_id := author_id
    author_name := author_data.name
    author_description := author_data.description.getD ""
    period := author_data.period.getD ""
    location := author_data.location.getD ""
    work_id := work_id
    work_title := titleGenre.1
    work_genre := titleGenre.2
    url := work_data.url
    traditional_citation := traditional_citation
    traditional_abbreviation := (TLG_ABBREVIATIONS.lookup author_id).getD ("TLG" ++ author_id)
    extraction_date := now }

/-- Python `str.split()` with no argument: maximal runs of
non-whitespace. -/
def pyWords : List Char → List (List Char)
  | [] => []
  | c :: t =>
    if isPySpace c then pyWords t
    else (c :: t.takeWhile (fun d => !isPySpace d)) ::
      pyWords (t.dropWhile (fun d => !isPySpace d))
termination_by l => l.length
decreasing_by
  · simp
  · exact Nat.lt_succ_of_le (List.dropWhile_sublist _).length_le

/-- `TLGValidationSystem.min_greek_ratio` (0.2). -/
def min_greek_ratio : ℚ := 1 / 5

/-- `TLGValidationSystem.min_text_length`. -/
def min_text_length : Nat := 50

/-- The dictionary returned by `validate_greek_content`; keys present only
on the full branch are `Option`s. -/
structure GreekValidation where
  valid : Bool
  reason : String
  length : Nat
  greek_ratio : ℚ
  word_count : Option Nat
  greek_chars : Option Nat
  total_alpha_chars : Option Nat
  deriving Repr, DecidableEq

/-- `TLGValidationSystem.validate_greek_content`
(tlg_reference_preservation.py lines 252-292), parameterised by the
`str.isalpha` predicate (Unicode Alphabetic); the float division
`greek_chars / total_alpha_chars` is modelled as exact rational
division. -/
def validate_greek_content (isAlpha : Char → Bool) (text : List Char) :
    GreekValidation :=
  if text.length < min_text_length then
    { valid := false, reason := "Text too short", length := text.length
      greek_ratio := 0, word_count := none, greek_chars := none
      total_alpha_chars := none }
  else
    let greek_chars := text.countP (fun c => isAlpha c && isGreekChar c)
    let total_alpha_chars := text.countP (fun c => isAlpha c)
    if total_alpha_chars = 0 then
      { valid := false, reason := "No alphabetic characters", length := text.length
        greek_ratio := 0, word_count := none, greek_chars := none
        total_alpha_chars := none }
    else
      let greek_ratio : ℚ := (greek_chars : ℚ) / (total_alpha_chars : ℚ)
      { valid := decide (min_greek_ratio ≤ greek_ratio)
        reason := if min_greek_ratio ≤ greek_ratio then "Valid Greek text"
                  else "Insufficient Greek content"
        length := text.length
        greek_ratio := greek_ratio
        word_count := some (pyWords text).length
        greek_chars := some greek_chars
        total_alpha_chars := some total_alpha_chars }

/-- `TLGValidationSystem.required_reference_fields`. -/
def required_reference_fields : List String :=
  ["author_id", "work_id", "author_name", "work_title",
   "traditional_citation", "url"]

/-- `getattr(reference, field, None)` on a `TLGReference`. -/
def refField (r : TLGReference) : String → Option String
  | "author_id" => some r.author_id
  | "work_id" => some r.work_id
  | "author_name" => some r.author_name
  | "author_description" => some r.author_description
  | "period" => some r.period
  | "location" => some r.location
  | "work_title" => some r.work_title
  | "work_genre" => some r.work_genre
  | "url" => some r.url
  | "traditional_citation" => some r.traditional_citation
  | "traditional_abbreviation" => some r.traditional_abbreviation
  | "extraction_date" => some r.extraction_date
  | _ => none

/-- `not value or (isinstance(value, str) and not value.strip())`: the
field is counted missing when absent, empty, or whitespace-only. -/
def fieldMissing (v : Option String) : Bool :=
  match v with
  | none => true
  | some s => s.isEmpty || (pyStrip s.data).isEmpty

/-- Result of `validate_reference_completeness`. -/
structure RefValidation where
  valid : Bool
  missing_fields : List String
  completeness_score : ℚ
  deriving Repr, DecidableEq

/-- `TLGValidationSystem.validate_reference_completeness`
(tlg_reference_preservation.py lines 294-307). -/
def validate_reference_completeness (r : TLGReference) : RefValidation :=
  let missing := required_reference_fields.filter (fun f => fieldMissing (refField r f))
  { valid := decide (missing.length = 0)
    missing_fields := missing
    completeness_score :=
      ((required_reference_fields.length : ℚ) - (missing.length : ℚ)) /
        (required_reference_fields.length : ℚ) }

/-- The parts of a `ValidatedExtraction` read by `validate_extraction`:
its `text_structure.raw_text` and its `tlg_reference`. -/
structure ExtractionInput where
  raw_text : List Char
  tlg_reference : TLGReference
  deriving Repr

/-- Result of `validate_extraction` (`validation_timestamp` omitted: it is
a wall-clock side effect). -/
structure ExtractionValidation where
  overall_valid : Bool
  text_validation : GreekValidation
  reference_validation : RefValidation
  deriving Repr

/-- `TLGValidationSystem.validate_extraction`
(tlg_reference_preservation.py lines 309-325): `overall_valid` is the
conjunction of the text validation and the reference-completeness
validation. -/
def validate_extraction (isAlpha : Char → Bool) (e : ExtractionInput) :
    ExtractionValidation :=
  let text_validation := validate_greek_content isAlpha e.raw_text
  let reference_validation := validate_reference_completeness e.tlg_reference
  { overall_valid := text_validation.valid && reference_validation.valid
    text_validation := text_validation
    reference_validation := reference_validation }

/-- Partial model of Python `str.isalpha` (the Unicode Alphabetic
property), sound on the code points used by concrete witnesses: ASCII
letters and the Greek letter ranges U+0391..U+03A1 and U+03A3..U+03C9.
All validator theorems are proved for an arbitrary alphabet predicate;
this definition only instantiates them. -/
def pyIsAlpha (c : Char) : Bool :=
  (0x41 ≤ c.toNat && c.toNat ≤ 0x5A) || (0x61 ≤ c.toNat && c.toNat ≤ 0x7A) ||
  (0x391 ≤ c.toNat && c.toNat ≤ 0x3A1) || (0x3A3 ≤ c.toNat && c.toNat ≤ 0x3C9)

/-- Primitive JSON values as they occur in the flat author-index entries
(`tlg_author_index.json`). -/
inductive JVal where
  | jstr (s : List Char)
  | jnum (n : Int)
  | jbool (b : Bool)
  | jnull
  deriving Repr, DecidableEq

/-- Python `str(...)` on a primitive JSON value. -/
def pyStr : JVal → List Char
  | .jstr s => s
  | .jnum n => (toString n).data
  | .jbool true => String.data "True"
  | .jbool false => String.data "False"
  | .jnull => String.data "None"

/-- An ASCII cased letter.  The catalogue names are ASCII/Latin
transliterations (see the `_title_case` docstring), so the ASCII cased
set is the relevant fragment of Python's. -/
def isCasedAscii (c : Char) : Bool :=
  (0x41 ≤ c.toNat && c.toNat ≤ 0x5A) || (0x61 ≤ c.toNat && c.toNat ≤ 0x7A)

/-- Python `str.title()` (`_title_case`, author_catalog_tools.py lines
56-67): upper-case a cased letter not preceded by a cased letter,
lower-case one that is, leave everything else unchanged. -/
def pyTitleAux : Bool → List Char → List Char
  | _, [] => []
  | prevCased, c :: t =>
    (if isCasedAscii c then (if prevCased then c.toLower else c.toUpper) else c)
      :: pyTitleAux (isCasedAscii c) t

/-- `_title_case(name)`, i.e. `name.title()`. -/
def _title_case (name : List Char) : List Char :=
  pyTitleAux false name

/-- The update applied to one author entry by `normalise_author_index`:
when a `name` field is present, replace its value in place by
`_title_case(str(value))`. -/
def normEntry (entry : List (String × JVal)) : List (String × JVal) :=
  if (entry.lookup "name").isSome then
    entry.map (fun p => if p.1 = "name" then (p.1, JVal.jstr (_title_case (pyStr p.2))) else p)
  else entry

/-- `normalise_author_index` (author_catalog_tools.py lines 70-82), on the
decoded JSON mapping (file I/O stripped): title-case every entry's `name`
field, leaving keys and all other fields as they are. -/
def normalise_author_index (data : List (String × List (String × JVal))) :
    List (String × List (String × JVal)) :=
  data.map (fun p => (p.1, normEntry p.2))

/-- `b` differs from `a` at most in ASCII case. -/
def CaseVariant (a b : Char) : Prop :=
  b = a ∨ b = a.toUpper ∨ b = a.toLower

/-- Work metadata read by `_collect_works`: `work_meta.get("language", "")`
and `work_meta.get("title", "")`. -/
structure WorkMetaJ where
  language : Option String
  title : Option String
  deriving Repr, DecidableEq

/-- Author metadata read by `_collect_works`: `author_meta.get("name", "")`
and `author_meta.get("works", {})`. -/
structure AuthorMetaJ where
  name : Option String
  works : Option (List (String × WorkMetaJ))
  deriving Repr, DecidableEq

/-- Python `str.lower()` on the ASCII fragment (language codes such as
`grc` are ASCII). -/
def strLower (s : String) : String :=
  ⟨s.data.map Char.toLower⟩

/-- Python dict insertion: overwrite in place if the key exists, append
otherwise. -/
def dictInsert {α β : Type} [DecidableEq α] (k : α) (v : β)
    (d : List (α × β)) : List (α × β) :=
  if d.any (fun p => p.1 = k) then
    d.map (fun p => if p.1 = k then (k, v) else p)
  else d ++ [(k, v)]

/-- `{lang.lower() for lang in languages} if languages else None`: `None`
and the empty collection are both falsy. -/
def normLangSet (languages : Option (List String)) : Option (List String) :=
  match languages with
  | none => none
  | some ls => if ls.isEmpty then none else some (ls.map strLower)

/-- One value of the `works` mapping built by `_collect_works`. -/
structure RowMeta where
  author_id : String
  work_id : String
  author_name : String
  work_title : String
  deriving Repr, DecidableEq

/-- The body of the inner `for work_id, work_meta` loop of
`_collect_works` (author_catalog_tools.py lines 102-116): skip the work
unless its lower-cased language is selected, otherwise insert its row
under the key `(author_id, work_id)`. -/
def collectStep (norm_langs : Option (List String)) (p : String × AuthorMetaJ)
    (works : List ((String × String) × RowMeta)) (q : String × WorkMetaJ) :
    List ((String × String) × RowMeta) :=
  let work_lang := strLower (q.2.language.getD "")
  let keep := match norm_langs with
    | none => true
    | some ls => ls.contains work_lang
  if keep then
    dictInsert (p.1, q.1) ⟨p.1, q.1, p.2.name.getD "", q.2.title.getD ""⟩ works
  else works

/-- `_collect_works` (author_catalog_tools.py lines 89-117): mapping of
`(author_id, work_id)` to row metadata for the selected languages. -/
def _collect_works (catalogue : List (String × AuthorMetaJ))
    (languages : Option (List String)) :
    List ((String × String) × RowMeta) :=
  let norm_langs := normLangSet languages
  catalogue.foldl
    (fun works p => (p.2.works.getD []).foldl (collectStep norm_langs p) works)
    []

/-- Ascending lexicographic comparison of `(author_id, work_id)` pairs:
Python's tuple-of-strings order (strings compare by code point). -/
def keyLe (a b : String × String) : Bool :=
  if a.1 = b.1 then !decide (b.2 < a.2) else decide (a.1 < b.1)

/-- One data row of the coverage CSV. -/
structure CoverageRow where
  author_id : String
  work_id : String
  author_name : String
  work_title : String
  coverage : String
  deriving Repr, DecidableEq

/-- The row written for one key of the coverage CSV
(author_catalog_tools.py lines 150-173): label `bot`/`tlg`/`leg` by
which catalogues contain the key.  In the `bot` branch the source merges
`{**legacy, **tlg}`, and all four row keys exist on both sides, so the
merged row is the TLG row.  The `none/none` arm is unreachable (every key
comes from one of the two mappings). -/
def coverageRowFor (legacy_works tlg_works : List ((String × String) × RowMeta))
    (key : String × String) : CoverageRow :=
  match legacy_works.lookup key, tlg_works.lookup key with
  | some _, some tm => ⟨tm.author_id, tm.work_id, tm.author_name, tm.work_title, "bot"⟩
  | none, some tm => ⟨tm.author_id, tm.work_id, tm.author_name, tm.work_title, "tlg"⟩
  | some lm, none => ⟨lm.author_id, lm.work_id, lm.author_name, lm.work_title, "leg"⟩
  | none, none => ⟨key.1, key.2, "", "", "leg"⟩

/-- The data rows written by `generate_coverage_csv`
(author_catalog_tools.py lines 120-175); file I/O stripped: one row per
key of the sorted union of the two catalogues' key sets. -/
def generate_coverage_rows (legacy_catalog tlg_catalog : List (String × AuthorMetaJ))
    (languages : Option (List String)) : List CoverageRow :=
  let lang_set := normLangSet languages
  let legacy_works := _collect_works legacy_catalog lang_set
  let tlg_works := _collect_works tlg_catalog lang_set
  let all_keys := (legacy_works.map Prod.fst ++ tlg_works.map Prod.fst).dedup
  (all_keys.mergeSort keyLe).map (coverageRowFor legacy_works tlg_works)

/-- The `TLGWork` dataclass (discover_tlg.py lines 48-57). -/
structure TLGWork where
  work_id : String
  title : String
  url : String
  estimated_size : Option Nat
  deriving Repr, DecidableEq

/-- `f"{n:03d}"`: decimal, zero-padded to width 3. -/
def fmt3 (n : Nat) : String :=
  let s := toString n
  ⟨List.replicate (3 - s.length) '0' ++ s.data⟩

/-- The two URL encodings tried for a candidate work
(discover_tlg.py lines 202-205): plain `_` and `%5F`. -/
def urls_to_try (baseUrl tlg_id : String) (work_id : Nat) : List String :=
  [baseUrl ++ "/TLG" ++ tlg_id ++ "/" ++ tlg_id ++ "_" ++ fmt3 work_id ++ ".htm",
   baseUrl ++ "/TLG" ++ tlg_id ++ "/" ++ tlg_id ++ "%5F" ++ fmt3 work_id ++ ".htm"]

/-- The inner `for url in urls_to_try` loop (discover_tlg.py lines
208-222): fetch each URL in turn (the network is the oracle `fetch`,
`none` meaning `fetch_page` returned `None`); a URL is a hit when its
content is truthy and longer than 1000 bytes, and the loop breaks at the
first hit.  Returns the URLs actually fetched and the hit, if any. -/
def tryUrls (fetch : String → Option (List Char)) :
    List String → List String × Option (String × Nat)
  | [] => ([], none)
  | url :: rest =>
    match fetch url with
    | none =>
      let r := tryUrls fetch rest
      (url :: r.1, r.2)
    | some content =>
      if content.isEmpty then
        let r := tryUrls fetch rest
        (url :: r.1, r.2)
      else if 1000 < content.length then ([url], some (url, content.length))
      else
        let r := tryUrls fetch rest
        (url :: r.1, r.2)

/-- State of the work-discovery loop, with a log of the candidate ids
probed and the URLs fetched. -/
structure DiscoverState where
  works : List TLGWork
  consecutive_misses : Nat
  probed : List Nat
  fetched : List String
  deriving Repr

/-- The body of one iteration of the work-discovery loop
(discover_tlg.py lines 199-231): try the candidate's URLs; on a hit,
append a `TLGWork` and reset the miss counter; otherwise increment it. -/
def processCandidate (fetch : String → Option (List Char)) (baseUrl tlg_id : String)
    (work_id : Nat) (st : DiscoverState) : DiscoverState :=
  let r := tryUrls fetch (urls_to_try baseUrl tlg_id work_id)
  match r.2 with
  | some hit =>
    { works := st.works ++
        [⟨fmt3 work_id, "Work " ++ fmt3 work_id, hit.1, some hit.2⟩]
      consecutive_misses := 0
      probed := st.probed ++ [work_id]
      fetched := st.fetched ++ r.1 }
  | none =>
    { works := st.works
      consecutive_misses := st.consecutive_misses + 1
      probed := st.probed ++ [work_id]
      fetched := st.fetched ++ r.1 }

/-- `max_consecutive_misses` (discover_tlg.py line 197). -/
def max_consecutive_misses : Nat := 20

/-- `for work_id in range(1, max_works + 1)` with the early break once
`consecutive_misses >= max_consecutive_misses`; `fuel` is the number of
candidate ids left in the range and `i` the next candidate. -/
def discoverLoop (fetch : String → Option (List Char)) (baseUrl tlg_id : String) :
    Nat → Nat → DiscoverState → DiscoverState
  | 0, _, st => st
  | fuel + 1, i, st =>
    let st' := processCandidate fetch baseUrl tlg_id i st
    if max_consecutive_misses ≤ st'.consecutive_misses then st'
    else discoverLoop fetch baseUrl tlg_id fuel (i + 1) st'

/-- `TLGDiscovery.discover_author_works` (discover_tlg.py lines 193-234;
the same loop appears in tlg_integrated_extractor.py lines 176-218 with
`max_works = 999`): probe candidate ids `1 .. max_works`. -/
def discover_author_works (fetch : String → Option (List Char))
    (baseUrl tlg_id : String) (max_works : Nat) : DiscoverState :=
  discoverLoop fetch baseUrl tlg_id max_works 1 ⟨[], 0, [], []⟩

/-- A candidate id is a miss when no URL tried for it yields a hit. -/
def isMiss (fetch : String → Option (List Char)) (baseUrl tlg_id : String)
    (work_id : Nat) : Bool :=
  (tryUrls fetch (urls_to_try baseUrl tlg_id work_id)).2.isNone

/-- Length of the maximal run of consecutive misses ending at the given
candidate id (0 at id 0): the value of `consecutive_misses` after the
candidate is processed, absent the early break. -/
def missRun (fetch : String → Option (List Char)) (baseUrl tlg_id : String) :
    Nat → Nat
  | 0 => 0
  | n + 1 =>
    if isMiss fetch baseUrl tlg_id (n + 1) then
      missRun fetch baseUrl tlg_id n + 1
    else 0

/-- Outcome of one HTTP attempt: a status/body response, or an exception
raised by the client. -/
inductive FetchOutcome where
  | response (status : Nat) (body : List Char)
  | failure
  deriving Repr

/-- The configuration values read by `fetch_page`:
`CONFIG["extraction"]["max_retries"]`, `["retry_on_status"]`, and
`["rate_limit"]["base_delay"]`. -/
structure FetchConfig where
  max_retries : Nat
  retry_on_status : List Nat
  base_delay : ℚ
  deriving Repr

/-- Result of `fetch_page`, with the sleeps it performed
(attempt index, wait time) and the number of attempts made. -/
structure FetchResult where
  result : Option (List Char)
  sleeps : List (Nat × ℚ)
  attempts : Nat
  deriving Repr

/-- The `for attempt in range(max_retries)` loop of `fetch_page`
(discover_tlg.py lines 104-129; the same loop, with `max_retries` a
parameter, is tlg_integrated_extractor.py lines 92-113).  `outcomes a`
is what attempt `a` observes on the wire.  Status 200 returns the body;
a status in `retry_on_status` sleeps `2 ** attempt * base_delay` and
retries; any other status returns `None`; an exception sleeps the same
backoff (except on the last attempt) and retries. -/
def fetchLoop (outcomes : Nat → FetchOutcome) (cfg : FetchConfig) :
    Nat → Nat → List (Nat × ℚ) → FetchResult
  | 0, a, acc => { result := none, sleeps := acc, attempts := a }
  | fuel + 1, a, acc =>
    match outcomes a with
    | .response s body =>
      if s = 200 then { result := some body, sleeps := acc, attempts := a + 1 }
      else if s ∈ cfg.retry_on_status then
        fetchLoop outcomes cfg fuel (a + 1) (acc ++ [(a, 2 ^ a * cfg.base_delay)])
      else { result := none, sleeps := acc, attempts := a + 1 }
    | .failure =>
      if a < cfg.max_retries - 1 then
        fetchLoop outcomes cfg fuel (a + 1) (acc ++ [(a, 2 ^ a * cfg.base_delay)])
      else fetchLoop outcomes cfg fuel (a + 1) acc

/-- `TLGDiscovery.fetch_page`. -/
def fetch_page (outcomes : Nat → FetchOutcome) (cfg : FetchConfig) : FetchResult :=
  fetchLoop outcomes cfg cfg.max_retries 0 []

/-! ## Association-list helpers -/

theorem lookup_eq_none_iff {α β : Type} [BEq α] [LawfulBEq α]
    (l : List (α × β)) (k : α) :
    l.lookup k = none ↔ ∀ p ∈ l, p.1 ≠ k := by
  induction l with
  | nil => simp [List.lookup]
  | cons hd tl ih =>
    obtain ⟨k', v⟩ := hd
    by_cases hkk : k = k'
    · subst hkk
      simp [List.lookup]
    · have hbeq : (k == k') = false := beq_false_of_ne hkk
      simp only [List.lookup, hbeq]
      simp [ih, Ne.symm hkk, hkk]

theorem lookup_isSome_iff {α β : Type} [BEq α] [LawfulBEq α]
    (l : List (α × β)) (k : α) :
    (l.lookup k).isSome = true ↔ k ∈ l.map Prod.fst := by
  induction l with
  | nil => simp [List.lookup]
  | cons hd tl ih =>
    obtain ⟨k', v⟩ := hd
    by_cases hkk : k = k'
    · subst hkk
      simp [List.lookup]
    · have hbeq : (k == k') = false := beq_false_of_ne hkk
      simp only [List.lookup, hbeq]
      simp [ih, hkk]

/-! ## C6: citation fallback for unknown author ids -/

/-- C6: for an author id absent from `TLG_ABBREVIATIONS`,
`build_traditional_citation` uses the fallback `TLG<id>` verbatim as the
author abbreviation of the returned citation (the work part is then the
generic work id, since every `WORK_MAPPINGS` author is also in the
abbreviation table), and `create_reference_from_discovery` stores the same
fallback as `traditional_abbreviation`. -/
theorem build_traditional_citation_fallback
    (a : AuthorData) (w : WorkData) (now : String) (work_id : String)
    (h : TLG_ABBREVIATIONS.lookup a.tlg_id = none) :
    build_traditional_citation a.tlg_id work_id
        = "TLG" ++ a.tlg_id ++ " " ++ work_id ∧
    (create_reference_from_discovery a w now).traditional_abbreviation
        = "TLG" ++ a.tlg_id ∧
    (create_reference_from_discovery a w now).traditional_citation
        = "TLG" ++ a.tlg_id ++ " " ++ w.work_id := by
  have hne : ∀ p ∈ TLG_ABBREVIATIONS, p.1 ≠ a.tlg_id :=
    (lookup_eq_none_iff _ _).mp h
  have h12 : "0012" ≠ a.tlg_id := hne ("0012", "Hom.") (by simp [TLG_ABBREVIATIONS])
  have h59 : "0059" ≠ a.tlg_id := hne ("0059", "Pl.") (by simp [TLG_ABBREVIATIONS])
  have h86 : "0086" ≠ a.tlg_id := hne ("0086", "Arist.") (by simp [TLG_ABBREVIATIONS])
  have hWM : WORK_MAPPINGS.lookup a.tlg_id = none := by
    refine (lookup_eq_none_iff _ _).mpr ?_
    intro p hp
    simp only [WORK_MAPPINGS, List.mem_cons, List.not_mem_nil, or_false] at hp
    rcases hp with h' | h' | h' <;> (subst h'; assumption)
  refine ⟨?_, ?_, ?_⟩
  · simp [build_traditional_citation, h, hWM]
  · simp [create_reference_from_discovery, h]
  · simp [create_reference_from_discovery, build_traditional_citation, h, hWM]

/-- Witness for C6 at the concrete author id `9999` (not in the table). -/
theorem build_traditional_citation_fallback_witness :
    build_traditional_citation "9999" "005" = "TLG9999 005" ∧
    (create_reference_from_discovery
        ⟨"9999", "Ignotus", none, none, none⟩
        ⟨"005", none, "http://x/TLG9999/9999_005.htm"⟩
        "2025-01-01").traditional_abbreviation = "TLG9999" := by
  have h := build_traditional_citation_fallback
    ⟨"9999", "Ignotus", none, none, none⟩
    ⟨"005", none, "http://x/TLG9999/9999_005.htm"⟩
    "2025-01-01" "005" (by decide)
  exact ⟨h.1, h.2.1⟩

/-! ## C5: the overall validation flag -/

/-- C5 (amended): the text-validation flag of `validate_extraction` is
exactly the conjunction of the two threshold checks (length at least 50
and Greek ratio at least 0.2, the reported ratio being 0 when there are no
alphabetic characters), with no partial credit; the overall flag is that
conjunction ANDed with the reference-completeness flag. -/
theorem validate_extraction_flag (isAlpha : Char → Bool) (e : ExtractionInput) :
    ((validate_extraction isAlpha e).text_validation.valid
        = (decide (min_text_length ≤ e.raw_text.length) &&
           decide (min_greek_ratio ≤ (validate_greek_content isAlpha e.raw_text).greek_ratio)))
    ∧ ((validate_extraction isAlpha e).overall_valid
        = ((validate_extraction isAlpha e).text_validation.valid &&
           (validate_reference_completeness e.tlg_reference).valid)) := by
  constructor
  · show (validate_greek_content isAlpha e.raw_text).valid = _
    unfold validate_greek_content
    by_cases h1 : e.raw_text.length < min_text_length
    · have h1' : ¬ (min_text_length ≤ e.raw_text.length) := Nat.not_le.mpr h1
      simp [h1, h1']
    · have h1' : min_text_length ≤ e.raw_text.length := Nat.not_lt.mp h1
      by_cases h2 : e.raw_text.countP (fun c => isAlpha c) = 0
      · have : ¬ (min_greek_ratio ≤ (0 : ℚ)) := by norm_num [min_greek_ratio]
        simp [h1, h2, this]
      · simp [h1, h2, h1']
  · rfl

/-- Counterexample to C5 as stated: an extraction whose text passes both
threshold checks (60 Greek letters: length 60 ≥ 50, ratio 1 ≥ 0.2) but
whose reference has an empty `url`, so `overall_valid` is `false` — the
overall flag is not the AND of the two text threshold checks alone. -/
theorem validate_extraction_not_text_only :
    (validate_extraction pyIsAlpha
      { raw_text := List.replicate 60 'α'
        tlg_reference :=
          { author_id := "0012", author_name := "Homerus", author_description := ""
            period := "", location := "", work_id := "001", work_title := "Iliad"
            work_genre := "Epic Poetry", url := "", traditional_citation := "Hom. Il."
            traditional_abbreviation := "Hom.", extraction_date := "" } }).overall_valid
        = false
    ∧ min_text_length ≤ (List.replicate 60 'α').length
    ∧ min_greek_ratio ≤ (validate_greek_content pyIsAlpha (List.replicate 60 'α')).greek_ratio := by
  have hcg : (List.replicate 60 'α').countP (fun c => pyIsAlpha c && isGreekChar c) = 60 := by
    decide
  have hca : (List.replicate 60 'α').countP (fun c => pyIsAlpha c) = 60 := by decide
  have htv : (validate_greek_content pyIsAlpha (List.replicate 60 'α')).greek_ratio = 1 := by
    unfold validate_greek_content
    rw [if_neg (by decide)]
    simp only [hcg, hca]
    rw [if_neg (by norm_num)]
    norm_num
  refine ⟨?_, by decide, ?_⟩
  · have hrv : (validate_reference_completeness
        { author_id := "0012", author_name := "Homerus", author_description := ""
          period := "", location := "", work_id := "001", work_title := "Iliad"
          work_genre := "Epic Poetry", url := "", traditional_citation := "Hom. Il."
          traditional_abbreviation := "Hom.", extraction_date := "" }).valid = false := by
      decide
    simp [validate_extraction, hrv]
  · rw [htv]
    norm_num [min_greek_ratio]

/-! ## C10: the Greek ratio of `validate_greek_content` -/

/-- C10: the reported `greek_ratio` always lies in `[0, 1]` (its
denominator counts only alphabetic characters, of which the Greek ones are
a subset); a text of sufficient length with no alphabetic characters at
all is reported invalid with ratio 0 (no division by zero); and appending
non-alphabetic characters (digits, punctuation, whitespace) never changes
the reported ratio. -/
theorem validate_greek_content_ratio (isAlpha : Char → Bool) (text : List Char) :
    (0 ≤ (validate_greek_content isAlpha text).greek_ratio ∧
     (validate_greek_content isAlpha text).greek_ratio ≤ 1)
    ∧ (min_text_length ≤ text.length → (∀ c ∈ text, isAlpha c = false) →
        (validate_greek_content isAlpha text).valid = false ∧
        (validate_greek_content isAlpha text).greek_ratio = 0 ∧
        (validate_greek_content isAlpha text).reason = "No alphabetic characters")
    ∧ (∀ junk : List Char, min_text_length ≤ text.length →
        (∀ c ∈ junk, isAlpha c = false) →
        (validate_greek_content isAlpha (text ++ junk)).greek_ratio
          = (validate_greek_content isAlpha text).greek_ratio) := by
  refine ⟨?_, ?_, ?_⟩
  · unfold validate_greek_content
    by_cases h1 : text.length < min_text_length
    · simp [h1]
    · by_cases h2 : text.countP (fun c => isAlpha c) = 0
      · simp [h1, h2]
      · have hle : text.countP (fun c => isAlpha c && isGreekChar c)
            ≤ text.countP (fun c => isAlpha c) :=
          List.countP_mono_left (fun c _ h => by
            simpa using (Bool.and_elim_left (by simpa using h)))
        have hpos : 0 < text.countP (fun c => isAlpha c) := Nat.pos_of_ne_zero h2
        simp only [h1, h2, if_false, if_neg h1]
        constructor
        · positivity
        · rw [div_le_one (by exact_mod_cast hpos)]
          exact_mod_cast hle
  · intro hlen hnone
    have h1 : ¬ (text.length < min_text_length) := Nat.not_lt.mpr hlen
    have h2 : text.countP (fun c => isAlpha c) = 0 :=
      List.countP_eq_zero.mpr (fun c hc => by simp [hnone c hc])
    unfold validate_greek_content
    simp [h1, h2]
  · intro junk hlen hnone
    have h1 : ¬ (text.length < min_text_length) := Nat.not_lt.mpr hlen
    have h1' : ¬ ((text ++ junk).length < min_text_length) := by
      simp only [List.length_append]
      omega
    have hja : junk.countP (fun c => isAlpha c) = 0 :=
      List.countP_eq_zero.mpr (fun c hc => by simp [hnone c hc])
    have hjg : junk.countP (fun c => isAlpha c && isGreekChar c) = 0 :=
      List.countP_eq_zero.mpr (fun c hc => by simp [hnone c hc])
    unfold validate_greek_content
    simp only [List.countP_append, hja, hjg, Nat.add_zero, h1, h1', if_false]
    by_cases h2 : text.countP (fun c => isAlpha c) = 0 <;> simp [h2]

/-- Witness for C10 at a concrete 50-character text with no alphabetic
characters. -/
theorem validate_greek_content_ratio_witness :
    (validate_greek_content pyIsAlpha (List.replicate 50 '1')).valid = false ∧
    (validate_greek_content pyIsAlpha (List.replicate 50 '1')).greek_ratio = 0 ∧
    (validate_greek_content pyIsAlpha
        (List.replicate 50 '1' ++ String.data "..!!")).greek_ratio
      = (validate_greek_content pyIsAlpha (List.replicate 50 '1')).greek_ratio := by
  have h := validate_greek_content_ratio pyIsAlpha (List.replicate 50 '1')
  have h2 := h.2.1 (by decide) (by decide)
  exact ⟨h2.1, h2.2.1, h.2.2 (String.data "..!!") (by decide) (by decide)⟩

/-! ## C1: all-Greek lines are classified as literary text -/

theorem toNat_ge_of_greek {c : Char} (h : isGreekChar c = true) :
    0x370 ≤ c.toNat := by
  simp only [isGreekChar, Bool.or_eq_true, Bool.and_eq_true, decide_eq_true_eq] at h
  omega

theorem toLower_of_high {c : Char} (h : 0x370 ≤ c.toNat) :
    c.toLower = c := by
  unfold Char.toLower
  exact if_neg (by omega)

theorem char_ne_of_toNat_lt {p c : Char} (h : p.toNat < c.toNat) : p ≠ c :=
  fun he => absurd (congrArg Char.toNat he) (by omega)

theorem isPrefixOf_cons_false {p c : Char} (ps t : List Char) (hne : p ≠ c) :
    (p :: ps).isPrefixOf (c :: t) = false := by
  simp [List.isPrefixOf, hne]

/-- A matcher whose anchored test fails on the empty string and on any
string headed by a code point at or above U+0370 finds nothing in a string
of such code points. -/
theorem searchFrom_false (here : List Char → Bool) (l : List Char)
    (h0 : here [] = false)
    (hstep : ∀ c t, 0x370 ≤ c.toNat → here (c :: t) = false)
    (hl : ∀ c ∈ l, 0x370 ≤ c.toNat) : searchFrom here l = false := by
  induction l with
  | nil => exact h0
  | cons c t ih =>
    show (here (c :: t) || searchFrom here t) = false
    rw [hstep c t (hl c (List.mem_cons_self c t)),
      ih (fun d hd => hl d (List.mem_cons_of_mem c hd))]
    rfl

theorem containsSub_false_of_high {p : Char} (ps : List Char) (l : List Char)
    (hp : p.toNat < 0x370) (hl : ∀ c ∈ l, 0x370 ≤ c.toNat) :
    containsSub (p :: ps) l = false := by
  refine searchFrom_false _ l (by simp [List.isPrefixOf]) ?_ hl
  intro c t hc
  exact isPrefixOf_cons_false ps t
    (char_ne_of_toNat_lt (Nat.lt_of_lt_of_le hp hc))

theorem tlgRefHere_false_of_high (c : Char) (t : List Char)
    (hc : 0x370 ≤ c.toNat) : tlgRefHere (c :: t) = false := by
  unfold tlgRefHere
  rw [show (String.data "tlg ") = 't' :: String.data "lg " from rfl]
  rw [isPrefixOf_cons_false _ t
    (char_ne_of_toNat_lt (Nat.lt_of_lt_of_le (by decide) hc))]
  rfl

theorem parenHere_false_of_high (tail : List Char) (c : Char) (t : List Char)
    (hc : 0x370 ≤ c.toNat) : parenHere tail (c :: t) = false := by
  have h : (c == '(') = false := by
    simp only [beq_eq_false_iff_ne, ne_eq]
    exact (char_ne_of_toNat_lt (Nat.lt_of_lt_of_le (by decide) hc)).symm
  show (c == '(' && seekClose tail t) = false
  rw [h]
  rfl

/-- None of the twelve metadata patterns (all of which begin with an ASCII
character) can match a line made only of Greek-range code points. -/
theorem isMetadataLine_allGreek (line : List Char)
    (h : ∀ c ∈ line, isGreekChar c = true) : isMetadataLine line = false := by
  have hlow : ∀ c ∈ line.map Char.toLower, 0x370 ≤ c.toNat := by
    intro c hc
    obtain ⟨d, hd, rfl⟩ := List.mem_map.mp hc
    rw [toLower_of_high (toNat_ge_of_greek (h d hd))]
    exact toNat_ge_of_greek (h d hd)
  have h1 : searchFrom tlgRefHere (line.map Char.toLower) = false :=
    searchFrom_false _ _ (by decide) tlgRefHere_false_of_high hlow
  have h7 : searchFrom (parenHere (String.data "b.c.)")) (line.map Char.toLower) = false :=
    searchFrom_false _ _ (by decide) (parenHere_false_of_high _) hlow
  have h8 : searchFrom (parenHere (String.data "a.d.)")) (line.map Char.toLower) = false :=
    searchFrom_false _ _ (by decide) (parenHere_false_of_high _) hlow
  have h2 : containsSub (String.data "source:") (line.map Char.toLower) = false :=
    containsSub_false_of_high _ _ (by decide) hlow
  have h3 : containsSub (String.data "citation:") (line.map Char.toLower) = false :=
    containsSub_false_of_high _ _ (by decide) hlow
  have h4 : containsSub (String.data "cf. et") (line.map Char.toLower) = false :=
    containsSub_false_of_high _ _ (by decide) hlow
  have h5 : containsSub (String.data "scholia:") (line.map Char.toLower) = false :=
    containsSub_false_of_high _ _ (by decide) hlow
  have h6 : containsSub (String.data "vitae:") (line.map Char.toLower) = false :=
    containsSub_false_of_high _ _ (by decide) hlow
  have h9 : containsSub (String.data "oxford:") (line.map Char.toLower) = false :=
    containsSub_false_of_high _ _ (by decide) hlow
  have h10 : containsSub (String.data "leipzig:") (line.map Char.toLower) = false :=
    containsSub_false_of_high _ _ (by decide) hlow
  have h11 : containsSub (String.data "teubner") (line.map Char.toLower) = false :=
    containsSub_false_of_high _ _ (by decide) hlow
  have h12 : containsSub (String.data "clarendon press") (line.map Char.toLower) = false :=
    containsSub_false_of_high _ _ (by decide) hlow
  unfold isMetadataLine
  simp only [h1, h2, h3, h4, h5, h6, h7, h8, h9, h10, h11, h12, Bool.or_self]

/-- A non-empty all-Greek line is classified as Greek text: the ratio is
1, so for a line longer than 20 characters the first branch fires, and
otherwise the mixed-content fallback does. -/
theorem classifyLine_allGreek (line : List Char) (hne : line ≠ [])
    (h : ∀ c ∈ line, isGreekChar c = true) : classifyLine line = .greek := by
  have hmeta : isMetadataLine line = false := isMetadataLine_allGreek line h
  have hcount : line.countP isGreekChar = line.length :=
    List.countP_eq_length.mpr h
  have hpos : 0 < line.length := List.length_pos.mpr hne
  unfold classifyLine
  simp only [hmeta, hcount, Bool.not_false, Bool.and_true, Bool.true_and,
    Bool.false_or, Bool.or_false]
  by_cases h20 : 20 < line.length
  · rw [if_pos]
    simp only [Bool.and_eq_true, decide_eq_true_eq]
    omega
  · rw [if_neg, if_neg]
    · simp only [decide_eq_true_eq]
      omega
    · simp only [Bool.and_eq_true, decide_eq_true_eq, not_and]
      omega

theorem classifyLines_greek_mem (lines : List (List Char)) (l : List Char)
    (hmem : l ∈ lines) (hne : (pyStrip l).isEmpty = false)
    (hcls : classifyLine (pyStrip l) = .greek) :
    pyStrip l ∈ (classifyLines lines).1 := by
  induction lines with
  | nil => cases hmem
  | cons hd tl ih =>
    rcases List.mem_cons.mp hmem with rfl | hmem'
    · simp only [classifyLines]
      rw [if_neg (by simp [hne]), hcls]
      exact List.mem_cons_self _ _
    · simp only [classifyLines]
      by_cases hs : (pyStrip hd).isEmpty
      · simpa [hs] using ih hmem'
      · rcases hcl : classifyLine (pyStrip hd) with _ | _
        · simp only [hs, Bool.false_eq_true, if_false, hcl]
          exact List.mem_cons_of_mem _ (ih hmem')
        · simpa [hs, hcl] using ih hmem'

theorem classifyLines_metadata_class (lines : List (List Char)) :
    ∀ m ∈ (classifyLines lines).2, classifyLine m = .metadata := by
  induction lines with
  | nil => intro m hm; cases hm
  | cons hd tl ih =>
    intro m hm
    by_cases hs : (pyStrip hd).isEmpty
    · exact ih m (by simpa [classifyLines, hs] using hm)
    · rcases hcl : classifyLine (pyStrip hd) with _ | _
      · exact ih m (by simpa [classifyLines, hs, hcl] using hm)
      · rcases List.mem_cons.mp (by simpa [classifyLines, hs, hcl] using hm) with rfl | hm'
        · exact hcl
        · exact ih m hm'

/-- C1: every line of the input that strips to a non-empty string made
only of characters in the Greek Unicode ranges U+0370–03FF and
U+1F00–1FFF is classified as literary text by
`separate_greek_from_metadata` — it appears among the Greek lines and not
among the metadata lines — regardless of its length. -/
theorem separate_greek_from_metadata_all_greek_line
    (mixed_text line : List Char) (hmem : line ∈ splitLines mixed_text)
    (hne : pyStrip line ≠ [])
    (hgreek : ∀ c ∈ pyStrip line, isGreekChar c = true) :
    pyStrip line ∈ (separate_greek_from_metadata mixed_text).greek_lines ∧
    pyStrip line ∉ (separate_greek_from_metadata mixed_text).metadata_lines := by
  have hcls : classifyLine (pyStrip line) = .greek :=
    classifyLine_allGreek _ hne hgreek
  have hne' : (pyStrip line).isEmpty = false := by
    cases hpe : (pyStrip line).isEmpty
    · rfl
    · exact absurd (List.isEmpty_iff.mp hpe) hne
  constructor
  · exact classifyLines_greek_mem _ _ hmem hne' hcls
  · intro hmm
    have := classifyLines_metadata_class (splitLines mixed_text) _ hmm
    rw [hcls] at this
    cases this

/-- Witness for C1 on a concrete mixed text: the 3-character all-Greek
line `αβγ` (shorter than the 20-character cut-off) lands in the Greek
lines. -/
theorem separate_greek_from_metadata_all_greek_line_witness :
    pyStrip (String.data "αβγ")
        ∈ (separate_greek_from_metadata
            (String.data "Source: Oxford\nαβγ")).greek_lines ∧
    pyStrip (String.data "αβγ")
        ∉ (separate_greek_from_metadata
            (String.data "Source: Oxford\nαβγ")).metadata_lines :=
  separate_greek_from_metadata_all_greek_line
    (String.data "Source: Oxford\nαβγ") (String.data "αβγ")
    (by decide) (by decide) (by decide)

/-! ## C7: normalisation is a pure casing change on `name` -/

theorem pyTitleAux_caseVariant : ∀ (b : Bool) (s : List Char),
    List.Forall₂ CaseVariant s (pyTitleAux b s) := by
  intro b s
  induction s generalizing b with
  | nil => exact List.Forall₂.nil
  | cons c t ih =>
    refine List.Forall₂.cons ?_ (ih _)
    unfold CaseVariant
    by_cases hc : isCasedAscii c
    · by_cases hb : b <;> simp [hc, hb]
    · simp [hc]

theorem lookup_map_updName (l : List (String × JVal)) (f : String)
    (hf : f ≠ "name") :
    (l.map (fun p => if p.1 = "name"
        then (p.1, JVal.jstr (_title_case (pyStr p.2))) else p)).lookup f
      = l.lookup f := by
  induction l with
  | nil => rfl
  | cons hd tl ih =>
    obtain ⟨k, v⟩ := hd
    simp only [List.map_cons]
    by_cases hk : k = "name"
    · subst hk
      rw [if_pos rfl]
      have hbeq : (f == "name") = false := beq_false_of_ne hf
      simp only [List.lookup, hbeq, ih]
    · rw [if_neg hk]
      simp only [List.lookup, ih]

theorem lookup_map_updName_name (l : List (String × JVal)) :
    (l.map (fun p => if p.1 = "name"
        then (p.1, JVal.jstr (_title_case (pyStr p.2))) else p)).lookup "name"
      = (l.lookup "name").map (fun v => JVal.jstr (_title_case (pyStr v))) := by
  induction l with
  | nil => rfl
  | cons hd tl ih =>
    obtain ⟨k, v⟩ := hd
    simp only [List.map_cons]
    by_cases hk : k = "name"
    · subst hk
      rw [if_pos rfl]
      simp only [List.lookup, beq_self_eq_true]
      rfl
    · rw [if_neg hk]
      have hbeq : ("name" == k) = false := beq_false_of_ne (Ne.symm hk)
      simp only [List.lookup, hbeq, ih]

/-- C7: `normalise_author_index` keeps exactly the same set of keys (in
order), keeps every field of every entry other than `name` unchanged, and
changes a string-valued `name` only by title-casing it — character for
character, each output character is the input character or its ASCII
case-twin. -/
theorem normalise_author_index_frame (data : List (String × List (String × JVal))) :
    ((normalise_author_index data).map Prod.fst = data.map Prod.fst)
    ∧ (∀ k entry, (k, entry) ∈ data →
        (k, normEntry entry) ∈ normalise_author_index data)
    ∧ (∀ entry : List (String × JVal),
        ((normEntry entry).map Prod.fst = entry.map Prod.fst)
        ∧ (∀ f : String, f ≠ "name" →
            (normEntry entry).lookup f = entry.lookup f)
        ∧ (∀ s : List Char, entry.lookup "name" = some (JVal.jstr s) →
            (normEntry entry).lookup "name" = some (JVal.jstr (_title_case s))
            ∧ List.Forall₂ CaseVariant s (_title_case s))) := by
  refine ⟨?_, ?_, ?_⟩
  · simp [normalise_author_index, List.map_map, Function.comp]
  · intro k entry h
    exact List.mem_map_of_mem _ h
  · intro entry
    refine ⟨?_, ?_, ?_⟩
    · unfold normEntry
      split
      · rw [List.map_map]
        refine List.map_congr_left (fun p _ => ?_)
        by_cases hp : p.1 = "name" <;> simp [hp]
      · rfl
    · intro f hf
      unfold normEntry
      split
      · exact lookup_map_updName entry f hf
      · rfl
    · intro s hs
      have hsome : (entry.lookup "name").isSome := by rw [hs]; rfl
      refine ⟨?_, pyTitleAux_caseVariant false s⟩
      unfold normEntry
      rw [if_pos hsome, lookup_map_updName_name, hs]
      rfl

/-- Witness for C7 on a concrete two-field entry: the upper-case name is
title-cased, the `period` field is untouched. -/
theorem normalise_author_index_frame_witness :
    (normEntry [("name", JVal.jstr (String.data "HERODOTUS")),
                ("period", JVal.jstr (String.data "5 B.C."))]).lookup "name"
        = some (JVal.jstr (String.data "Herodotus")) ∧
    (normEntry [("name", JVal.jstr (String.data "HERODOTUS")),
                ("period", JVal.jstr (String.data "5 B.C."))]).lookup "period"
        = some (JVal.jstr (String.data "5 B.C.")) := by
  have h := (normalise_author_index_frame
    [("0016", [("name", JVal.jstr (String.data "HERODOTUS")),
               ("period", JVal.jstr (String.data "5 B.C."))])]).2.2
    [("name", JVal.jstr (String.data "HERODOTUS")),
     ("period", JVal.jstr (String.data "5 B.C."))]
  refine ⟨?_, h.2.1 "period" (by decide)⟩
  rw [(h.2.2 (String.data "HERODOTUS") rfl).1]
  decide

/-! ## C8: retry/backoff behaviour of `fetch_page` -/

theorem fetchLoop_spec (outcomes : Nat → FetchOutcome) (cfg : FetchConfig) :
    ∀ (fuel a : Nat) (acc : List (Nat × ℚ)),
      (fetchLoop outcomes cfg fuel a acc).attempts ≤ a + fuel
      ∧ (∀ p ∈ (fetchLoop outcomes cfg fuel a acc).sleeps,
          p ∈ acc ∨ (p.2 = 2 ^ p.1 * cfg.base_delay ∧ a ≤ p.1 ∧ p.1 < a + fuel))
      ∧ ((∀ i, a ≤ i → i < a + fuel → ∀ body, outcomes i ≠ .response 200 body) →
          (fetchLoop outcomes cfg fuel a acc).result = none)
      ∧ (∀ body, (fetchLoop outcomes cfg fuel a acc).result = some body →
          ∃ i, a ≤ i ∧ i < a + fuel ∧ outcomes i = .response 200 body) := by
  intro fuel
  induction fuel with
  | zero =>
    intro a acc
    refine ⟨by simp [fetchLoop], fun p hp => Or.inl hp, fun _ => rfl, ?_⟩
    intro body hb
    cases hb
  | succ fuel ih =>
    intro a acc
    cases houtcome : outcomes a with
    | response s body =>
      by_cases h200 : s = 200
      · subst h200
        have hred : fetchLoop outcomes cfg (fuel + 1) a acc
            = { result := some body, sleeps := acc, attempts := a + 1 } := by
          simp [fetchLoop, houtcome]
        rw [hred]
        refine ⟨by show a + 1 ≤ a + (fuel + 1); omega, fun p hp => Or.inl hp, ?_, ?_⟩
        · intro h
          exact absurd houtcome (h a (Nat.le_refl a) (by omega) body)
        · intro body' hb
          cases hb
          exact ⟨a, Nat.le_refl a, by omega, houtcome⟩
      · by_cases hretry : s ∈ cfg.retry_on_status
        · have hred : fetchLoop outcomes cfg (fuel + 1) a acc
              = fetchLoop outcomes cfg fuel (a + 1)
                  (acc ++ [(a, 2 ^ a * cfg.base_delay)]) := by
            simp only [fetchLoop, houtcome, if_neg h200, if_pos hretry]
          rw [hred]
          obtain ⟨ha, hs, hn, hsome⟩ := ih (a + 1) (acc ++ [(a, 2 ^ a * cfg.base_delay)])
          refine ⟨by omega, ?_, ?_, ?_⟩
          · intro p hp
            rcases hs p hp with hacc | hbound
            · rcases List.mem_append.mp hacc with h' | h'
              · exact Or.inl h'
              · rcases List.mem_singleton.mp h' with rfl
                exact Or.inr ⟨rfl, Nat.le_refl a, by omega⟩
            · exact Or.inr ⟨hbound.1, by omega, by omega⟩
          · intro h
            exact hn (fun i h1 h2 b => h i (by omega) (by omega) b)
          · intro body' hb
            obtain ⟨i, h1, h2, h3⟩ := hsome body' hb
            exact ⟨i, by omega, by omega, h3⟩
        · have hred : fetchLoop outcomes cfg (fuel + 1) a acc
              = { result := none, sleeps := acc, attempts := a + 1 } := by
            simp only [fetchLoop, houtcome, if_neg h200, if_neg hretry]
          rw [hred]
          refine ⟨by show a + 1 ≤ a + (fuel + 1); omega,
            fun p hp => Or.inl hp, fun _ => rfl, ?_⟩
          intro body' hb
          cases hb
    | failure =>
      by_cases hlast : a < cfg.max_retries - 1
      · have hred : fetchLoop outcomes cfg (fuel + 1) a acc
            = fetchLoop outcomes cfg fuel (a + 1)
                (acc ++ [(a, 2 ^ a * cfg.base_delay)]) := by
          simp only [fetchLoop, houtcome, if_pos hlast]
        rw [hred]
        obtain ⟨ha, hs, hn, hsome⟩ := ih (a + 1) (acc ++ [(a, 2 ^ a * cfg.base_delay)])
        refine ⟨by omega, ?_, ?_, ?_⟩
        · intro p hp
          rcases hs p hp with hacc | hbound
          · rcases List.mem_append.mp hacc with h' | h'
            · exact Or.inl h'
            · rcases List.mem_singleton.mp h' with rfl
              exact Or.inr ⟨rfl, Nat.le_refl a, by omega⟩
          · exact Or.inr ⟨hbound.1, by omega, by omega⟩
        · intro h
          exact hn (fun i h1 h2 b => h i (by omega) (by omega) b)
        · intro body' hb
          obtain ⟨i, h1, h2, h3⟩ := hsome body' hb
          exact ⟨i, by omega, by omega, h3⟩
      · have hred : fetchLoop outcomes cfg (fuel + 1) a acc
            = fetchLoop outcomes cfg fuel (a + 1) acc := by
          simp only [fetchLoop, houtcome, if_neg hlast]
        rw [hred]
        obtain ⟨ha, hs, hn, hsome⟩ := ih (a + 1) acc
        refine ⟨by omega, ?_, ?_, ?_⟩
        · intro p hp
          rcases hs p hp with hacc | hbound
          · exact Or.inl hacc
          · exact Or.inr ⟨hbound.1, by omega, by omega⟩
        · intro h
          exact hn (fun i h1 h2 b => h i (by omega) (by omega) b)
        · intro body' hb
          obtain ⟨i, h1, h2, h3⟩ := hsome body' hb
          exact ⟨i, by omega, by omega, h3⟩

/-- C8: for any wire behaviour, `fetch_page` makes at most
`max_retries` attempts; every sleep it performs between retried attempts
waits exactly `2 ** attempt * base_delay`; when no attempt within the
budget observes an HTTP 200, the result is the absent value `None`
(never an exception); and a returned body always comes from some HTTP 200
response within the budget. -/
theorem fetch_page_spec (outcomes : Nat → FetchOutcome) (cfg : FetchConfig) :
    ((fetch_page outcomes cfg).attempts ≤ cfg.max_retries)
    ∧ (∀ p ∈ (fetch_page outcomes cfg).sleeps,
        p.2 = 2 ^ p.1 * cfg.base_delay ∧ p.1 < cfg.max_retries)
    ∧ ((∀ a, a < cfg.max_retries → ∀ body, outcomes a ≠ .response 200 body) →
        (fetch_page outcomes cfg).result = none)
    ∧ (∀ body, (fetch_page outcomes cfg).result = some body →
        ∃ a, a < cfg.max_retries ∧ outcomes a = .response 200 body) := by
  obtain ⟨ha, hs, hn, hsome⟩ := fetchLoop_spec outcomes cfg cfg.max_retries 0 []
  refine ⟨by simpa using ha, ?_, ?_, ?_⟩
  · intro p hp
    rcases hs p hp with h' | h'
    · cases h'
    · exact ⟨h'.1, by omega⟩
  · intro h
    exact hn (fun i h1 h2 b => h i (by omega) b)
  · intro body hb
    obtain ⟨i, _, h2, h3⟩ := hsome body hb
    exact ⟨i, by omega, h3⟩

/-- Witness for C8: with every attempt raising an exception
(`max_retries = 3`, `retry_on_status = [503]`, `base_delay = 2`),
`fetch_page` returns `None` after at most 3 attempts. -/
theorem fetch_page_spec_witness :
    (fetch_page (fun _ => .failure) ⟨3, [503], 2⟩).result = none ∧
    (fetch_page (fun _ => .failure) ⟨3, [503], 2⟩).attempts ≤ 3 := by
  have h := fetch_page_spec (fun _ => .failure) ⟨3, [503], 2⟩
  exact ⟨h.2.2.1 (fun a _ body hb => FetchOutcome.noConfusion hb), h.1⟩

/-! ## C2: a candidate with no substantial content is a miss -/

theorem tryUrls_cons_none (fetch : String → Option (List Char)) (u : String)
    (rest : List String) (hf : fetch u = none) :
    tryUrls fetch (u :: rest)
      = (u :: (tryUrls fetch rest).1, (tryUrls fetch rest).2) := by
  simp [tryUrls, hf]

theorem tryUrls_cons_small (fetch : String → Option (List Char)) (u : String)
    (rest : List String) (c : List Char) (hf : fetch u = some c)
    (hsm : ¬ 1000 < c.length) :
    tryUrls fetch (u :: rest)
      = (u :: (tryUrls fetch rest).1, (tryUrls fetch rest).2) := by
  by_cases he : c.isEmpty <;> simp [tryUrls, hf, he, hsm]

theorem tryUrls_cons_hit (fetch : String → Option (List Char)) (u : String)
    (rest : List String) (c : List Char) (hf : fetch u = some c)
    (hlong : 1000 < c.length) :
    tryUrls fetch (u :: rest) = ([u], some (u, c.length)) := by
  have hne : c.isEmpty = false := by
    cases hie : c.isEmpty
    · rfl
    · rw [List.isEmpty_iff.mp hie] at hlong
      simp at hlong
  simp [tryUrls, hf, hne, hlong]

theorem tryUrls_hit_iff (fetch : String → Option (List Char)) (urls : List String) :
    (tryUrls fetch urls).2.isSome = true ↔
      ∃ url ∈ urls, ∃ c, fetch url = some c ∧ 1000 < c.length := by
  induction urls with
  | nil => simp [tryUrls]
  | cons u rest ih =>
    have hskip : tryUrls fetch (u :: rest)
          = (u :: (tryUrls fetch rest).1, (tryUrls fetch rest).2) →
        (∀ c, fetch u = some c → ¬ 1000 < c.length) →
        ((tryUrls fetch (u :: rest)).2.isSome = true ↔
          ∃ url ∈ u :: rest, ∃ c, fetch url = some c ∧ 1000 < c.length) := by
      intro hred hu
      rw [hred]
      show (tryUrls fetch rest).2.isSome = true ↔ _
      rw [ih]
      constructor
      · rintro ⟨url, hm, c, hc, hlen⟩
        exact ⟨url, List.mem_cons_of_mem u hm, c, hc, hlen⟩
      · rintro ⟨url, hm, c, hc, hlen⟩
        rcases List.mem_cons.mp hm with rfl | hm'
        · exact absurd hlen (hu c hc)
        · exact ⟨url, hm', c, hc, hlen⟩
    cases hf : fetch u with
    | none =>
      refine hskip (tryUrls_cons_none fetch u rest hf) ?_
      intro c hc
      rw [hf] at hc
      cases hc
    | some c =>
      by_cases hlong : 1000 < c.length
      · rw [tryUrls_cons_hit fetch u rest c hf hlong]
        simp only [Option.isSome_some, true_iff]
        exact ⟨u, List.mem_cons_self u rest, c, hf, hlong⟩
      · refine hskip (tryUrls_cons_small fetch u rest c hf hlong) ?_
        intro c' hc'
        rw [hf] at hc'
        cases hc'
        exact hlong

/-- C2: if every URL tried for a candidate work id yields either no
content or content of at most 1000 bytes, the discovery loop records no
work for that candidate and increments `consecutive_misses` by exactly
one; and the counter is reset to zero precisely when some URL of the
candidate yields content above the threshold. -/
theorem discover_candidate_miss (fetch : String → Option (List Char))
    (baseUrl tlg_id : String) (work_id : Nat) (st : DiscoverState) :
    ((∀ url ∈ urls_to_try baseUrl tlg_id work_id, ∀ c,
        fetch url = some c → c.length ≤ 1000) →
      (processCandidate fetch baseUrl tlg_id work_id st).works = st.works ∧
      (processCandidate fetch baseUrl tlg_id work_id st).consecutive_misses
        = st.consecutive_misses + 1)
    ∧ ((processCandidate fetch baseUrl tlg_id work_id st).consecutive_misses = 0 ↔
        ∃ url ∈ urls_to_try baseUrl tlg_id work_id, ∃ c,
          fetch url = some c ∧ 1000 < c.length) := by
  cases hr : (tryUrls fetch (urls_to_try baseUrl tlg_id work_id)).2 with
  | none =>
    have hred : processCandidate fetch baseUrl tlg_id work_id st
        = { works := st.works, consecutive_misses := st.consecutive_misses + 1
            probed := st.probed ++ [work_id]
            fetched := st.fetched ++ (tryUrls fetch (urls_to_try baseUrl tlg_id work_id)).1 } := by
      simp only [processCandidate, hr]
    rw [hred]
    refine ⟨fun _ => ⟨rfl, rfl⟩, ?_⟩
    simp only [Nat.succ_ne_zero, false_iff]
    rw [← tryUrls_hit_iff]
    simp [hr]
  | some hit =>
    have hred : processCandidate fetch baseUrl tlg_id work_id st
        = { works := st.works ++
              [⟨fmt3 work_id, "Work " ++ fmt3 work_id, hit.1, some hit.2⟩]
            consecutive_misses := 0
            probed := st.probed ++ [work_id]
            fetched := st.fetched ++ (tryUrls fetch (urls_to_try baseUrl tlg_id work_id)).1 } := by
      simp only [processCandidate, hr]
    rw [hred]
    have hhit : ∃ url ∈ urls_to_try baseUrl tlg_id work_id, ∃ c,
        fetch url = some c ∧ 1000 < c.length := by
      rw [← tryUrls_hit_iff]
      simp [hr]
    constructor
    · intro h
      obtain ⟨url, hm, c, hc, hlen⟩ := hhit
      exact absurd (h url hm c hc) (by omega)
    · simpa using hhit

/-- Witness for C2: an oracle serving 500 bytes on the first URL of
candidate 1 (and nothing on the second) is a miss: no work is recorded
and the miss counter goes from 5 to 6. -/
theorem discover_candidate_miss_witness :
    (processCandidate
        (fun u => if u = "http://h/TLG0012/0012_001.htm"
                  then some (List.replicate 500 'x') else none)
        "http://h" "0012" 1 ⟨[], 5, [], []⟩).works = [] ∧
    (processCandidate
        (fun u => if u = "http://h/TLG0012/0012_001.htm"
                  then some (List.replicate 500 'x') else none)
        "http://h" "0012" 1 ⟨[], 5, [], []⟩).consecutive_misses = 6 := by
  have hside : ∀ url ∈ urls_to_try "http://h" "0012" 1, ∀ c : List Char,
      (fun u => if u = "http://h/TLG0012/0012_001.htm"
                then some (List.replicate 500 'x') else none) url = some c →
      c.length ≤ 1000 := by
    intro url hu c hc
    simp only [urls_to_try, List.mem_cons, List.not_mem_nil, or_false] at hu
    rcases hu with rfl | rfl
    · dsimp only at hc
      rw [if_pos (by decide)] at hc
      cases hc
      rw [List.length_replicate]
      omega
    · dsimp only at hc
      rw [if_neg (by decide)] at hc
      cases hc
  have h := (discover_candidate_miss
      (fun u => if u = "http://h/TLG0012/0012_001.htm"
                then some (List.replicate 500 'x') else none)
      "http://h" "0012" 1 ⟨[], 5, [], []⟩).1 hside
  exact ⟨h.1, h.2⟩

/-! ## C3: the discovery loop probes 1..k and stops on 20 misses -/

theorem tryUrls_fst_of_none (fetch : String → Option (List Char)) :
    ∀ urls : List String, (tryUrls fetch urls).2 = none →
      (tryUrls fetch urls).1 = urls := by
  intro urls
  induction urls with
  | nil => intro _; rfl
  | cons u rest ih =>
    intro h
    cases hf : fetch u with
    | none =>
      rw [tryUrls_cons_none fetch u rest hf] at h ⊢
      exact congrArg (u :: ·) (ih h)
    | some c =>
      by_cases hlong : 1000 < c.length
      · rw [tryUrls_cons_hit fetch u rest c hf hlong] at h
        cases h
      · rw [tryUrls_cons_small fetch u rest c hf hlong] at h ⊢
        exact congrArg (u :: ·) (ih h)

theorem processCandidate_state (fetch : String → Option (List Char))
    (baseUrl tlg_id : String) (i : Nat) (st : DiscoverState) :
    (processCandidate fetch baseUrl tlg_id i st).probed = st.probed ++ [i]
    ∧ (processCandidate fetch baseUrl tlg_id i st).fetched
        = st.fetched ++ (tryUrls fetch (urls_to_try baseUrl tlg_id i)).1
    ∧ (processCandidate fetch baseUrl tlg_id i st).consecutive_misses
        = (if isMiss fetch baseUrl tlg_id i = true
           then st.consecutive_misses + 1 else 0) := by
  cases hr : (tryUrls fetch (urls_to_try baseUrl tlg_id i)).2 with
  | none =>
    have hm : isMiss fetch baseUrl tlg_id i = true := by simp [isMiss, hr]
    simp [processCandidate, hr, hm]
  | some hit =>
    have hm : isMiss fetch baseUrl tlg_id i = false := by simp [isMiss, hr]
    simp [processCandidate, hr, hm]

theorem missRun_le_self (fetch : String → Option (List Char))
    (baseUrl tlg_id : String) : ∀ n, missRun fetch baseUrl tlg_id n ≤ n := by
  intro n
  induction n with
  | zero => simp [missRun]
  | succ n ih =>
    simp only [missRun]
    split <;> omega

theorem missRun_miss_mem (fetch : String → Option (List Char))
    (baseUrl tlg_id : String) :
    ∀ n d, d < missRun fetch baseUrl tlg_id n →
      isMiss fetch baseUrl tlg_id (n - d) = true := by
  intro n
  induction n with
  | zero => intro d hd; simp [missRun] at hd
  | succ n ih =>
    intro d hd
    by_cases hm : isMiss fetch baseUrl tlg_id (n + 1) = true
    · simp only [missRun] at hd
      rw [if_pos hm] at hd
      cases d with
      | zero => simpa using hm
      | succ d' =>
        have hlt : d' < missRun fetch baseUrl tlg_id n := by omega
        simpa [Nat.succ_sub_succ] using ih d' hlt
    · simp only [missRun] at hd
      rw [if_neg hm] at hd
      omega

theorem missRun_ge_of_misses (fetch : String → Option (List Char))
    (baseUrl tlg_id : String) :
    ∀ m n, m ≤ n → (∀ d, d < m → isMiss fetch baseUrl tlg_id (n - d) = true) →
      m ≤ missRun fetch baseUrl tlg_id n := by
  intro m
  induction m with
  | zero => intro n _ _; exact Nat.zero_le _
  | succ m ih =>
    intro n hmn hall
    obtain ⟨n', rfl⟩ : ∃ n', n = n' + 1 := ⟨n - 1, by omega⟩
    have hm0 : isMiss fetch baseUrl tlg_id (n' + 1) = true := by
      simpa using hall 0 (by omega)
    have hrest : ∀ d, d < m → isMiss fetch baseUrl tlg_id (n' - d) = true := by
      intro d hd
      simpa [Nat.succ_sub_succ] using hall (d + 1) (by omega)
    have := ih n' (by omega) hrest
    simp only [missRun]
    rw [if_pos hm0]
    omega

theorem discoverLoop_succ (fetch : String → Option (List Char))
    (baseUrl tlg_id : String) (fuel i : Nat) (st : DiscoverState) :
    discoverLoop fetch baseUrl tlg_id (fuel + 1) i st
      = (if 20 ≤ (processCandidate fetch baseUrl tlg_id i st).consecutive_misses
         then processCandidate fetch baseUrl tlg_id i st
         else discoverLoop fetch baseUrl tlg_id fuel (i + 1)
                (processCandidate fetch baseUrl tlg_id i st)) := rfl

/-- Invariant-carrying description of the work-discovery loop: entered at
candidate `i` with the miss counter equal to the miss run ending at
`i - 1` (and below 20), it probes exactly the consecutive candidates
`i .. k` for some `k`, runs out of range or stops with a miss run of
exactly 20, never leaves a complete 20-miss window strictly inside the
probed range, and fetches exactly the URLs its candidates try. -/
theorem discoverLoop_run (fetch : String → Option (List Char))
    (baseUrl tlg_id : String) :
    ∀ (fuel i : Nat) (st : DiscoverState),
      1 ≤ i →
      st.consecutive_misses = missRun fetch baseUrl tlg_id (i - 1) →
      st.consecutive_misses < 20 →
      (∀ e, 1 ≤ e → e + 19 ≤ i - 1 →
        ∃ j, e ≤ j ∧ j ≤ e + 19 ∧ isMiss fetch baseUrl tlg_id j = false) →
      ∃ k, i - 1 ≤ k ∧ k ≤ i - 1 + fuel
        ∧ (1 ≤ fuel → i ≤ k)
        ∧ (discoverLoop fetch baseUrl tlg_id fuel i st).probed
            = st.probed ++ List.range' i (k - (i - 1))
        ∧ (discoverLoop fetch baseUrl tlg_id fuel i st).fetched
            = st.fetched ++ (List.range' i (k - (i - 1))).flatMap
                (fun w => (tryUrls fetch (urls_to_try baseUrl tlg_id w)).1)
        ∧ (k < i - 1 + fuel → missRun fetch baseUrl tlg_id k = 20)
        ∧ (∀ e, 1 ≤ e → e + 19 ≤ k - 1 →
            ∃ j, e ≤ j ∧ j ≤ e + 19 ∧ isMiss fetch baseUrl tlg_id j = false) := by
  intro fuel
  induction fuel with
  | zero =>
    intro i st hi hM hlt hH4
    refine ⟨i - 1, Nat.le_refl _, by omega, by omega, ?_, ?_, by omega, ?_⟩
    · simp [discoverLoop]
    · simp [discoverLoop]
    · intro e he hle
      exact hH4 e he (by omega)
  | succ fuel ih =>
    intro i st hi hM hlt hH4
    obtain ⟨hprobed, hfetched, hmisses⟩ :=
      processCandidate_state fetch baseUrl tlg_id i st
    have hM' : (processCandidate fetch baseUrl tlg_id i st).consecutive_misses
        = missRun fetch baseUrl tlg_id i := by
      rw [hmisses]
      obtain ⟨i', rfl⟩ : ∃ i', i = i' + 1 := ⟨i - 1, by omega⟩
      by_cases hm : isMiss fetch baseUrl tlg_id (i' + 1) = true
      · rw [if_pos hm, hM]
        simp only [missRun]
        rw [if_pos hm]
        simp
      · rw [if_neg hm]
        simp only [missRun]
        rw [if_neg hm]
    by_cases hbreak :
        20 ≤ (processCandidate fetch baseUrl tlg_id i st).consecutive_misses
    · -- break: the run ending at i just reached 20
      have hred := discoverLoop_succ fetch baseUrl tlg_id fuel i st
      rw [if_pos hbreak] at hred
      have hM20 : missRun fetch baseUrl tlg_id i = 20 := by
        rw [hM'] at hbreak
        rw [hmisses] at hM'
        by_cases hm : isMiss fetch baseUrl tlg_id i = true
        · rw [if_pos hm] at hM'
          omega
        · rw [if_neg hm] at hM'
          omega
      refine ⟨i, by omega, by omega, fun _ => Nat.le_refl i, ?_, ?_, fun _ => hM20, ?_⟩
      · rw [hred, hprobed]
        have h1 : i - (i - 1) = 1 := by omega
        rw [h1]
        rfl
      · rw [hred, hfetched]
        have h1 : i - (i - 1) = 1 := by omega
        rw [h1]
        simp [List.range']
      · intro e he hle
        exact hH4 e he (by omega)
    · -- continue with candidate i + 1
      have hred := discoverLoop_succ fetch baseUrl tlg_id fuel i st
      rw [if_neg hbreak] at hred
      have hH4' : ∀ e, 1 ≤ e → e + 19 ≤ (i + 1) - 1 →
          ∃ j, e ≤ j ∧ j ≤ e + 19 ∧ isMiss fetch baseUrl tlg_id j = false := by
        intro e he hle
        by_cases hcase : e + 19 ≤ i - 1
        · exact hH4 e he hcase
        · have hei : e + 19 = i := by omega
          by_contra hallm
          push_neg at hallm
          have hall : ∀ d, d < 20 → isMiss fetch baseUrl tlg_id (i - d) = true := by
            intro d hd
            have h1 : e ≤ i - d := by omega
            have h2 : i - d ≤ e + 19 := by omega
            have := hallm (i - d) h1 h2
            cases hmm : isMiss fetch baseUrl tlg_id (i - d)
            · exact absurd hmm this
            · rfl
          have h20 : 20 ≤ missRun fetch baseUrl tlg_id i :=
            missRun_ge_of_misses fetch baseUrl tlg_id 20 i (by omega) hall
          rw [hM'] at hbreak
          omega
      obtain ⟨k, hk1, hk2, _, hp, hf, hbr, hH4k⟩ :=
        ih (i + 1) (processCandidate fetch baseUrl tlg_id i st)
          (by omega) (by simpa using hM') (by omega) hH4'
      have hik : i ≤ k := by simpa using hk1
      refine ⟨k, by omega, by omega, fun _ => hik, ?_, ?_, ?_, hH4k⟩
      · rw [hred, hp, hprobed]
        have hcnt : k - (i - 1) = (k - i) + 1 := by omega
        rw [hcnt]
        have : List.range' i ((k - i) + 1) = i :: List.range' (i + 1) (k - i) := rfl
        rw [this, List.append_assoc]
        rfl
      · rw [hred, hf, hfetched]
        have hcnt : k - (i - 1) = (k - i) + 1 := by omega
        rw [hcnt]
        have : List.range' i ((k - i) + 1) = i :: List.range' (i + 1) (k - i) := rfl
        rw [this, List.flatMap_cons, List.append_assoc]
        simp
      · intro hklt
        exact hbr (by omega)

/-- C3: for every oracle and author id, `discover_author_works` (a total
function here, so it always terminates) probes candidate work ids
sequentially starting at 1 — its probe log is exactly `1 .. k` for some
`k ≤ max_works` (999 by default and in the integrated extractor, so no
candidate above 999 is ever probed); it stops early exactly behind a run
of 20 consecutive misses: if it stops before `max_works` the last 20
candidates probed are all misses, and any complete 20-miss window inside
the probed range is at its very end.  Every URL it fetches comes from the
two-encoding URL list of a probed candidate, and for a missed candidate
both encodings were fetched. -/
theorem discover_author_works_termination (fetch : String → Option (List Char))
    (baseUrl tlg_id : String) (max_works : Nat) (hmw : 1 ≤ max_works) :
    ∃ k, 1 ≤ k ∧ k ≤ max_works
      ∧ (discover_author_works fetch baseUrl tlg_id max_works).probed
          = List.range' 1 k
      ∧ (∀ w ∈ (discover_author_works fetch baseUrl tlg_id max_works).probed,
          1 ≤ w ∧ w ≤ max_works)
      ∧ (k < max_works → 20 ≤ k ∧ ∀ j, k - 19 ≤ j → j ≤ k →
          isMiss fetch baseUrl tlg_id j = true)
      ∧ (∀ e, 1 ≤ e → e + 19 ≤ k →
          (∀ j, e ≤ j → j ≤ e + 19 → isMiss fetch baseUrl tlg_id j = true) →
          k = e + 19)
      ∧ ((discover_author_works fetch baseUrl tlg_id max_works).fetched
          = (List.range' 1 k).flatMap
              (fun w => (tryUrls fetch (urls_to_try baseUrl tlg_id w)).1))
      ∧ (∀ w, isMiss fetch baseUrl tlg_id w = true →
          (tryUrls fetch (urls_to_try baseUrl tlg_id w)).1
            = urls_to_try baseUrl tlg_id w) := by
  obtain ⟨k, _, hk2, hk3, hp, hf, hbr, hH4⟩ :=
    discoverLoop_run fetch baseUrl tlg_id max_works 1 ⟨[], 0, [], []⟩
      (Nat.le_refl 1) rfl (by show (0 : Nat) < 20; omega)
      (by intro e he hle; omega)
  have hk1 : 1 ≤ k := hk3 hmw
  refine ⟨k, hk1, by omega, by simpa using hp, ?_, ?_, ?_, by simpa using hf, ?_⟩
  · intro w hw
    rw [show (discover_author_works fetch baseUrl tlg_id max_works).probed
        = List.range' 1 k from by simpa using hp] at hw
    have := List.mem_range'_1.mp hw
    omega
  · intro hklt
    have hM20 : missRun fetch baseUrl tlg_id k = 20 := hbr (by omega)
    have hk20 : 20 ≤ k := by
      have := missRun_le_self fetch baseUrl tlg_id k
      omega
    refine ⟨hk20, ?_⟩
    intro j h1 h2
    have hd : j = k - (k - j) := by omega
    rw [hd]
    exact missRun_miss_mem fetch baseUrl tlg_id k (k - j) (by omega)
  · intro e he hle hall
    by_cases hcase : e + 19 ≤ k - 1
    · obtain ⟨j, hj1, hj2, hj3⟩ := hH4 e he hcase
      rw [hall j hj1 hj2] at hj3
      cases hj3
    · omega
  · intro w hm
    exact tryUrls_fst_of_none fetch _
      (Option.isNone_iff_eq_none.mp (by simpa [isMiss] using hm))

/-- Witness for C3: with an oracle that never returns content, discovery
for the default bound 999 stops after exactly candidates 1..20 (20
consecutive misses). -/
theorem discover_author_works_termination_witness :
    (discover_author_works (fun _ => none) "http://h" "0012" 999).probed
        = List.range' 1 20 ∧
    ∀ w ∈ (discover_author_works (fun _ => none) "http://h" "0012" 999).probed,
      1 ≤ w ∧ w ≤ 999 := by
  obtain ⟨k, hk1, hk2, hp, hmem, hstop, hsoon, -, -⟩ :=
    discover_author_works_termination (fun _ => none) "http://h" "0012" 999
      (by omega)
  have hmiss : ∀ j : Nat, isMiss (fun _ => none) "http://h" "0012" j = true := by
    intro j
    have : (tryUrls (fun _ => none) (urls_to_try "http://h" "0012" j)).2 = none := by
      unfold urls_to_try
      rw [tryUrls_cons_none _ _ _ rfl, tryUrls_cons_none _ _ _ rfl]
      rfl
    simp [isMiss, this]
  have hk20 : k = 20 := by
    by_cases hlt : k < 999
    · have h := hsoon 1 (Nat.le_refl 1) (by omega) (fun j _ _ => hmiss j)
      omega
    · have h := hsoon 1 (Nat.le_refl 1) (by omega) (fun j _ _ => hmiss j)
      omega
  rw [hk20] at hp
  exact ⟨hp, hmem⟩

/-! ## C9: `parse_url_reference` errors exactly off-pattern -/

theorem takeDigits_sound :
    ∀ (n : Nat) (s d r : List Char), takeDigits n s = some (d, r) →
      d.length = n ∧ (∀ c ∈ d, isDigitChar c = true) ∧ s = d ++ r := by
  intro n
  induction n with
  | zero =>
    intro s d r h
    simp only [takeDigits, Option.some.injEq, Prod.mk.injEq] at h
    obtain ⟨rfl, rfl⟩ := h
    exact ⟨rfl, fun c hc => absurd hc (List.not_mem_nil c), rfl⟩
  | succ n ih =>
    intro s d r h
    cases s with
    | nil => cases h
    | cons c s' =>
      by_cases hdig : isDigitChar c = true
      · have hstep : takeDigits (n + 1) (c :: s')
            = (takeDigits n s').map (fun p => (c :: p.1, p.2)) := by
          simp only [takeDigits, if_pos hdig]
        rw [hstep] at h
        cases hd : takeDigits n s' with
        | none => rw [hd] at h; cases h
        | some p =>
          obtain ⟨d', r'⟩ := p
          rw [hd] at h
          rw [Option.map_some'] at h
          simp only [Option.some.injEq, Prod.mk.injEq] at h
          obtain ⟨rfl, rfl⟩ := h
          obtain ⟨hlen, hdigs, hsplit⟩ := ih s' d' r' hd
          refine ⟨by rw [List.length_cons, hlen], ?_, by rw [hsplit]; rfl⟩
          intro x hx
          rcases List.mem_cons.mp hx with rfl | hx'
          · exact hdig
          · exact hdigs x hx'
      · have hstep : takeDigits (n + 1) (c :: s') = none := by
          simp only [takeDigits, if_neg hdig]
        rw [hstep] at h
        cases h

theorem takeDigits_complete :
    ∀ (d r : List Char), (∀ c ∈ d, isDigitChar c = true) →
      takeDigits d.length (d ++ r) = some (d, r) := by
  intro d
  induction d with
  | nil => intro r _; rfl
  | cons c d' ih =>
    intro r hdigs
    have hc : isDigitChar c = true := hdigs c (List.mem_cons_self c d')
    show takeDigits (d'.length + 1) (c :: (d' ++ r)) = some (c :: d', r)
    have hstep : takeDigits (d'.length + 1) (c :: (d' ++ r))
        = (takeDigits d'.length (d' ++ r)).map (fun p => (c :: p.1, p.2)) := by
      simp only [takeDigits, if_pos hc]
    rw [hstep, ih r (fun x hx => hdigs x (List.mem_cons_of_mem c hx))]
    rfl

theorem dropLit_iff (lit s r : List Char) :
    dropLit lit s = some r ↔ s = lit ++ r := by
  constructor
  · intro h
    unfold dropLit at h
    by_cases hp : lit.isPrefixOf s
    · rw [if_pos hp] at h
      obtain ⟨t, rfl⟩ := List.isPrefixOf_iff_prefix.mp hp
      rw [List.drop_left] at h
      cases h
      rfl
    · rw [if_neg hp] at h
      cases h
  · rintro rfl
    unfold dropLit
    rw [if_pos (List.isPrefixOf_iff_prefix.mpr ⟨r, rfl⟩), List.drop_left]

theorem dropLit_append (lit r : List Char) : dropLit lit (lit ++ r) = some r :=
  (dropLit_iff lit (lit ++ r) r).mpr rfl

/-- Soundness and completeness of the anchored matcher against the
structural decomposition. -/
theorem matchRefHere_iff (sep s : List Char) (a w : List Char) :
    matchRefHere sep s = some (a, w) ↔
      ∃ e post, s = String.data "/TLG" ++ (a ++ (['/'] ++ (e ++ (sep ++ (w ++
            (String.data ".htm" ++ post))))))
        ∧ a.length = 4 ∧ (∀ c ∈ a, isDigitChar c = true)
        ∧ e.length = 4 ∧ (∀ c ∈ e, isDigitChar c = true)
        ∧ w.length = 3 ∧ (∀ c ∈ w, isDigitChar c = true) := by
  constructor
  · intro h
    simp only [matchRefHere, Option.bind_eq_some, Option.map_eq_some'] at h
    obtain ⟨s1, h1, p2, h2, s3, h3, p4, h4, s5, h5, p6, h6, post, h7, heq⟩ := h
    obtain ⟨a2, s2⟩ := p2
    obtain ⟨e4, s4⟩ := p4
    obtain ⟨w6, s6⟩ := p6
    simp only [Prod.mk.injEq] at heq
    obtain ⟨ha, hw⟩ := heq
    rw [← ha, ← hw]
    have h3' : dropLit ['/'] s2 = some s3 := h3
    have h5' : dropLit sep s4 = some s5 := h5
    have h7' : dropLit (String.data ".htm") s6 = some post := h7
    obtain ⟨ha4, had, hs1⟩ := takeDigits_sound 4 s1 a2 s2 h2
    obtain ⟨he4, hed, hs3⟩ := takeDigits_sound 4 s3 e4 s4 h4
    obtain ⟨hw3, hwd, hs5⟩ := takeDigits_sound 3 s5 w6 s6 h6
    refine ⟨e4, post, ?_, ha4, had, he4, hed, hw3, hwd⟩
    rw [(dropLit_iff _ _ _).mp h1, hs1,
      (dropLit_iff _ _ _).mp h3', hs3,
      (dropLit_iff _ _ _).mp h5', hs5,
      (dropLit_iff _ _ _).mp h7']
  · rintro ⟨e, post, rfl, ha4, had, he4, hed, hw3, hwd⟩
    have t1 := takeDigits_complete a
      (['/'] ++ (e ++ (sep ++ (w ++ (String.data ".htm" ++ post))))) had
    rw [ha4] at t1
    have t2 := takeDigits_complete e
      (sep ++ (w ++ (String.data ".htm" ++ post))) hed
    rw [he4] at t2
    have t3 := takeDigits_complete w (String.data ".htm" ++ post) hwd
    rw [hw3] at t3
    unfold matchRefHere
    simp only [dropLit_append, Option.some_bind, t1, t2, t3, Option.map_some']

theorem searchRef_sound (sep : List Char) :
    ∀ (s : List Char) (r : List Char × List Char), searchRef sep s = some r →
      ∃ pre suf, s = pre ++ suf ∧ matchRefHere sep suf = some r := by
  intro s
  induction s with
  | nil =>
    intro r h
    exact ⟨[], [], rfl, h⟩
  | cons c t ih =>
    intro r h
    simp only [searchRef] at h
    cases h1 : matchRefHere sep (c :: t) with
    | some r' =>
      rw [h1] at h
      cases h
      exact ⟨[], c :: t, rfl, h1⟩
    | none =>
      rw [h1] at h
      obtain ⟨pre, suf, rfl, hm⟩ := ih r h
      exact ⟨c :: pre, suf, rfl, hm⟩

theorem searchRef_complete (sep : List Char) :
    ∀ (pre suf : List Char) (r : List Char × List Char),
      matchRefHere sep suf = some r →
      (searchRef sep (pre ++ suf)).isSome = true := by
  intro pre
  induction pre with
  | nil =>
    intro suf r h
    cases suf with
    | nil => simp only [List.nil_append, searchRef, h]; rfl
    | cons c t =>
      simp only [List.nil_append, searchRef, h]
      rfl
  | cons p pre' ih =>
    intro suf r h
    simp only [List.cons_append, searchRef]
    cases h1 : matchRefHere sep (p :: (pre' ++ suf)) with
    | some r' => rfl
    | none => exact ih suf r h

theorem searchRef_isSome_iff (sep s : List Char) :
    (searchRef sep s).isSome = true ↔ HasRef sep s := by
  constructor
  · intro h
    obtain ⟨⟨a, w⟩, hr⟩ := Option.isSome_iff_exists.mp h
    obtain ⟨pre, suf, rfl, hm⟩ := searchRef_sound sep s (a, w) hr
    obtain ⟨e, post, rfl, ha4, had, he4, hed, hw3, hwd⟩ :=
      (matchRefHere_iff sep _ a w).mp hm
    exact ⟨pre, a, e, w, post, by simp [List.append_assoc],
      ha4, had, he4, hed, hw3, hwd⟩
  · rintro ⟨pre, a, e, w, post, rfl, ha4, had, he4, hed, hw3, hwd⟩
    have hm : matchRefHere sep
        (String.data "/TLG" ++ (a ++ (['/'] ++ (e ++ (sep ++ (w ++
          (String.data ".htm" ++ post))))))) = some (a, w) :=
      (matchRefHere_iff sep _ a w).mpr
        ⟨e, post, rfl, ha4, had, he4, hed, hw3, hwd⟩
    have := searchRef_complete sep pre _ (a, w) hm
    simpa [List.append_assoc] using this

theorem matchRefHere_infix (sep suf : List Char) (a w : List Char)
    (h : matchRefHere sep suf = some (a, w)) :
    a <:+: suf ∧ w <:+: suf := by
  obtain ⟨e, post, rfl, -, -, -, -, -, -⟩ := (matchRefHere_iff sep suf a w).mp h
  constructor
  · exact ⟨String.data "/TLG",
      ['/'] ++ (e ++ (sep ++ (w ++ (String.data ".htm" ++ post)))),
      by simp [List.append_assoc]⟩
  · exact ⟨String.data "/TLG" ++ a ++ ['/'] ++ e ++ sep,
      String.data ".htm" ++ post, by simp [List.append_assoc]⟩

/-- C9: `parse_url_reference` raises `ValueError` exactly when the URL
contains an occurrence of neither `/TLG(\d{4})/\d{4}_(\d{3})\.htm` nor
`/TLG(\d{4})/\d{4}%5F(\d{3})\.htm`; on success, the returned author id is
4 decimal digits and the work id 3 decimal digits, both taken verbatim
from the URL. -/
theorem parse_url_reference_spec (url : List Char) :
    ((∃ msg, parse_url_reference url = .error msg) ↔
      ¬ HasRef ['_'] url ∧ ¬ HasRef (String.data "%5F") url)
    ∧ (∀ a w, parse_url_reference url = .ok (a, w) →
        a.length = 4 ∧ (∀ c ∈ a, isDigitChar c = true)
        ∧ w.length = 3 ∧ (∀ c ∈ w, isDigitChar c = true)
        ∧ a <:+: url ∧ w <:+: url) := by
  constructor
  · rw [← searchRef_isSome_iff, ← searchRef_isSome_iff]
    constructor
    · rintro ⟨msg, hmsg⟩
      unfold parse_url_reference at hmsg
      cases h1 : searchRef ['_'] url with
      | some r => rw [h1] at hmsg; cases hmsg
      | none =>
        rw [h1] at hmsg
        cases h2 : searchRef (String.data "%5F") url with
        | some r => rw [h2] at hmsg; cases hmsg
        | none => exact ⟨by simp [h1], by simp [h2]⟩
    · rintro ⟨hn1, hn2⟩
      have h1 : searchRef ['_'] url = none :=
        Option.not_isSome_iff_eq_none.mp (by simpa using hn1)
      have h2 : searchRef (String.data "%5F") url = none :=
        Option.not_isSome_iff_eq_none.mp (by simpa using hn2)
      refine ⟨String.data "Cannot parse TLG reference from URL: " ++ url, ?_⟩
      unfold parse_url_reference
      rw [h1, h2]
  · intro a w h
    unfold parse_url_reference at h
    cases h1 : searchRef ['_'] url with
    | some r =>
      rw [h1] at h
      have hr : r = (a, w) := Except.ok.inj h
      rw [hr] at h1
      obtain ⟨pre, suf, hurl, hm⟩ := searchRef_sound _ _ _ h1
      obtain ⟨-, -, -, ha4, had, -, -, hw3, hwd⟩ :=
        (matchRefHere_iff _ _ a w).mp hm
      obtain ⟨hai, hwi⟩ := matchRefHere_infix _ _ a w hm
      subst hurl
      exact ⟨ha4, had, hw3, hwd,
        hai.trans (List.suffix_append pre suf).isInfix,
        hwi.trans (List.suffix_append pre suf).isInfix⟩
    | none =>
      rw [h1] at h
      cases h2 : searchRef (String.data "%5F") url with
      | some r =>
        rw [h2] at h
        have hr : r = (a, w) := Except.ok.inj h
        rw [hr] at h2
        obtain ⟨pre, suf, hurl, hm⟩ := searchRef_sound _ _ _ h2
        obtain ⟨-, -, -, ha4, had, -, -, hw3, hwd⟩ :=
          (matchRefHere_iff _ _ a w).mp hm
        obtain ⟨hai, hwi⟩ := matchRefHere_infix _ _ a w hm
        subst hurl
        exact ⟨ha4, had, hw3, hwd,
          hai.trans (List.suffix_append pre suf).isInfix,
          hwi.trans (List.suffix_append pre suf).isInfix⟩
      | none =>
        rw [h2] at h
        cases h

/-- Witness for C9 at the example URL from the module's own `main`. -/
theorem parse_url_reference_spec_witness :
    (String.data "0012").length = 4 ∧
    String.data "0012" <:+: String.data "http://217.71.231.54:8080/TLG0012/0012_001.htm" := by
  have h := (parse_url_reference_spec
    (String.data "http://217.71.231.54:8080/TLG0012/0012_001.htm")).2
    (String.data "0012") (String.data "001") rfl
  exact ⟨h.1, h.2.2.2.2.1⟩

/-! ## C4: the coverage CSV covers the union of key sets exactly once -/

theorem mem_of_lookup_eq_some {α β : Type} [BEq α] [LawfulBEq α] :
    ∀ (l : List (α × β)) (k : α) (v : β), l.lookup k = some v → (k, v) ∈ l := by
  intro l
  induction l with
  | nil => intro k v h; cases h
  | cons hd tl ih =>
    intro k v h
    obtain ⟨k', v'⟩ := hd
    by_cases hk : k = k'
    · subst hk
      simp only [List.lookup, beq_self_eq_true] at h
      cases h
      exact List.mem_cons_self _ _
    · have hbeq : (k == k') = false := beq_false_of_ne hk
      simp only [List.lookup, hbeq] at h
      exact List.mem_cons_of_mem _ (ih k v h)

theorem dictInsert_nodup {β : Type} (k : String × String) (v : β)
    (d : List ((String × String) × β))
    (hd : (d.map Prod.fst).Nodup) :
    ((dictInsert k v d).map Prod.fst).Nodup := by
  unfold dictInsert
  by_cases hex : d.any (fun p => p.1 = k)
  · rw [if_pos hex]
    have hmap : (d.map (fun p => if p.1 = k then (k, v) else p)).map Prod.fst
        = d.map Prod.fst := by
      rw [List.map_map]
      refine List.map_congr_left (fun p _ => ?_)
      by_cases hp : p.1 = k <;> simp [hp]
    rw [hmap]
    exact hd
  · rw [if_neg hex]
    rw [List.map_append]
    have hnot : k ∉ d.map Prod.fst := by
      intro hmem
      obtain ⟨p, hp, hpk⟩ := List.mem_map.mp hmem
      exact hex (List.any_eq_true.mpr ⟨p, hp, by simp [hpk]⟩)
    simp only [List.map_cons, List.map_nil]
    exact List.Nodup.append hd (List.nodup_singleton k)
      (by simpa using hnot)

theorem dictInsert_mem {β : Type} (k : String × String) (v : β)
    (d : List ((String × String) × β)) (p : (String × String) × β)
    (hp : p ∈ dictInsert k v d) : p = (k, v) ∨ p ∈ d := by
  unfold dictInsert at hp
  by_cases hex : d.any (fun q => q.1 = k)
  · rw [if_pos hex] at hp
    obtain ⟨q, hq, hqp⟩ := List.mem_map.mp hp
    by_cases hqk : q.1 = k
    · rw [if_pos hqk] at hqp
      exact Or.inl hqp.symm
    · rw [if_neg hqk] at hqp
      exact Or.inr (hqp ▸ hq)
  · rw [if_neg hex] at hp
    rcases List.mem_append.mp hp with h | h
    · exact Or.inr h
    · exact Or.inl (List.mem_singleton.mp h)

theorem countP_eq_one_of_nodup_mem {α : Type} [DecidableEq α] :
    ∀ (l : List α), l.Nodup → ∀ a ∈ l,
      l.countP (fun x => decide (x = a)) = 1 := by
  intro l
  induction l with
  | nil => intro _ a ha; cases ha
  | cons h t ih =>
    intro hn a ha
    rcases List.mem_cons.mp ha with rfl | ha'
    · rw [List.countP_cons_of_pos _ _ (by simp)]
      have ht : t.countP (fun x => decide (x = a)) = 0 :=
        List.countP_eq_zero.mpr (fun x hx => by
          simp only [decide_eq_true_eq]
          rintro rfl
          exact (List.nodup_cons.mp hn).1 hx)
      rw [ht]
    · have hne : h ≠ a := by
        rintro rfl
        exact (List.nodup_cons.mp hn).1 ha'
      rw [List.countP_cons_of_neg _ _ (by simp [hne])]
      exact ih (List.nodup_cons.mp hn).2 a ha'

theorem collectStep_invariant (norm_langs : Option (List String))
    (p : String × AuthorMetaJ) (d : List ((String × String) × RowMeta))
    (q : String × WorkMetaJ)
    (hd : ((d.map Prod.fst).Nodup
      ∧ ∀ r ∈ d, r.2.author_id = r.1.1 ∧ r.2.work_id = r.1.2)) :
    (((collectStep norm_langs p d q).map Prod.fst).Nodup
      ∧ ∀ r ∈ collectStep norm_langs p d q,
          r.2.author_id = r.1.1 ∧ r.2.work_id = r.1.2) := by
  unfold collectStep
  dsimp only
  split
  · refine ⟨dictInsert_nodup _ _ _ hd.1, ?_⟩
    intro r hr
    rcases dictInsert_mem _ _ _ r hr with rfl | hr'
    · exact ⟨rfl, rfl⟩
    · exact hd.2 r hr'
  · exact hd

theorem collect_inner_invariant (norm_langs : Option (List String))
    (p : String × AuthorMetaJ) :
    ∀ (ws : List (String × WorkMetaJ)) (d : List ((String × String) × RowMeta)),
      ((d.map Prod.fst).Nodup
        ∧ ∀ r ∈ d, r.2.author_id = r.1.1 ∧ r.2.work_id = r.1.2) →
      (((ws.foldl (collectStep norm_langs p) d).map Prod.fst).Nodup
        ∧ ∀ r ∈ ws.foldl (collectStep norm_langs p) d,
            r.2.author_id = r.1.1 ∧ r.2.work_id = r.1.2) := by
  intro ws
  induction ws with
  | nil => intro d hd; exact hd
  | cons q rest ih =>
    intro d hd
    rw [List.foldl_cons]
    exact ih _ (collectStep_invariant norm_langs p d q hd)

theorem collect_works_invariant (catalogue : List (String × AuthorMetaJ))
    (languages : Option (List String)) :
    ((_collect_works catalogue languages).map Prod.fst).Nodup
    ∧ ∀ p ∈ _collect_works catalogue languages,
        p.2.author_id = p.1.1 ∧ p.2.work_id = p.1.2 := by
  unfold _collect_works
  have main : ∀ (cat : List (String × AuthorMetaJ))
      (d : List ((String × String) × RowMeta)),
      ((d.map Prod.fst).Nodup
        ∧ ∀ r ∈ d, r.2.author_id = r.1.1 ∧ r.2.work_id = r.1.2) →
      (((cat.foldl (fun works p =>
            (p.2.works.getD []).foldl (collectStep (normLangSet languages) p) works)
          d).map Prod.fst).Nodup
        ∧ ∀ r ∈ cat.foldl (fun works p =>
            (p.2.works.getD []).foldl (collectStep (normLangSet languages) p) works) d,
            r.2.author_id = r.1.1 ∧ r.2.work_id = r.1.2) := by
    intro cat
    induction cat with
    | nil => intro d hd; exact hd
    | cons author rest ih =>
      intro d hd
      rw [List.foldl_cons]
      exact ih _ (collect_inner_invariant (normLangSet languages) author _ d hd)
  exact main catalogue []
    ⟨List.nodup_nil, by intro r hr; cases hr⟩

theorem coverageRowFor_spec (LW TW : List ((String × String) × RowMeta))
    (hLW : ∀ p ∈ LW, p.2.author_id = p.1.1 ∧ p.2.work_id = p.1.2)
    (hTW : ∀ p ∈ TW, p.2.author_id = p.1.1 ∧ p.2.work_id = p.1.2)
    (key : String × String)
    (hkey : key ∈ LW.map Prod.fst ∨ key ∈ TW.map Prod.fst) :
    (coverageRowFor LW TW key).author_id = key.1
    ∧ (coverageRowFor LW TW key).work_id = key.2
    ∧ ((coverageRowFor LW TW key).coverage = "bot" ↔
        (key ∈ LW.map Prod.fst ∧ key ∈ TW.map Prod.fst))
    ∧ ((coverageRowFor LW TW key).coverage = "tlg" ↔
        (key ∉ LW.map Prod.fst ∧ key ∈ TW.map Prod.fst))
    ∧ ((coverageRowFor LW TW key).coverage = "leg" ↔
        (key ∈ LW.map Prod.fst ∧ key ∉ TW.map Prod.fst)) := by
  have hmemL : key ∈ LW.map Prod.fst ↔ (LW.lookup key).isSome = true :=
    (lookup_isSome_iff LW key).symm
  have hmemT : key ∈ TW.map Prod.fst ↔ (TW.lookup key).isSome = true :=
    (lookup_isSome_iff TW key).symm
  cases hl : LW.lookup key with
  | some lm =>
    have hinL : key ∈ LW.map Prod.fst := hmemL.mpr (by rw [hl]; rfl)
    cases ht : TW.lookup key with
    | some tm =>
      have hinT : key ∈ TW.map Prod.fst := hmemT.mpr (by rw [ht]; rfl)
      have hfields := hTW (key, tm) (mem_of_lookup_eq_some TW key tm ht)
      have hred : coverageRowFor LW TW key
          = ⟨tm.author_id, tm.work_id, tm.author_name, tm.work_title, "bot"⟩ := by
        unfold coverageRowFor
        rw [hl, ht]
      rw [hred]
      exact ⟨hfields.1, hfields.2, by simp [hinL, hinT],
        by simp [hinL, hinT], by simp [hinL, hinT]⟩
    | none =>
      have hninT : key ∉ TW.map Prod.fst := by
        rw [hmemT, ht]
        simp
      have hfields := hLW (key, lm) (mem_of_lookup_eq_some LW key lm hl)
      have hred : coverageRowFor LW TW key
          = ⟨lm.author_id, lm.work_id, lm.author_name, lm.work_title, "leg"⟩ := by
        unfold coverageRowFor
        rw [hl, ht]
      rw [hred]
      exact ⟨hfields.1, hfields.2, by simp [hninT],
        by simp [hninT], by simp [hinL, hninT]⟩
  | none =>
    have hninL : key ∉ LW.map Prod.fst := by
      rw [hmemL, hl]
      simp
    cases ht : TW.lookup key with
    | some tm =>
      have hinT : key ∈ TW.map Prod.fst := hmemT.mpr (by rw [ht]; rfl)
      have hfields := hTW (key, tm) (mem_of_lookup_eq_some TW key tm ht)
      have hred : coverageRowFor LW TW key
          = ⟨tm.author_id, tm.work_id, tm.author_name, tm.work_title, "tlg"⟩ := by
        unfold coverageRowFor
        rw [hl, ht]
      rw [hred]
      exact ⟨hfields.1, hfields.2, by simp [hninL],
        by simp [hninL, hinT], by simp [hninL]⟩
    | none =>
      have hninT : key ∉ TW.map Prod.fst := by
        rw [hmemT, ht]
        simp
      rcases hkey with h | h
      · exact absurd h hninL
      · exact absurd h hninT

/-- C4: the coverage CSV has exactly one data row per `(author_id,
work_id)` key of the union of the two catalogues' language-filtered work
key sets — the union's cardinality equals the row count, and each key's
unique row is labelled `bot` when the key is in both catalogues, `tlg`
when only in the TLG catalogue and `leg` when only in the legacy one. -/
theorem generate_coverage_rows_spec
    (legacy_catalog tlg_catalog : List (String × AuthorMetaJ))
    (languages : Option (List String)) :
    ((generate_coverage_rows legacy_catalog tlg_catalog languages).length
      = (((_collect_works legacy_catalog (normLangSet languages)).map Prod.fst).toFinset
          ∪ ((_collect_works tlg_catalog (normLangSet languages)).map Prod.fst).toFinset).card)
    ∧ (∀ key : String × String,
        (key ∈ (_collect_works legacy_catalog (normLangSet languages)).map Prod.fst ∨
         key ∈ (_collect_works tlg_catalog (normLangSet languages)).map Prod.fst) →
        ((generate_coverage_rows legacy_catalog tlg_catalog languages).filter
            (fun row => decide ((row.author_id, row.work_id) = key))).length = 1)
    ∧ (∀ row ∈ generate_coverage_rows legacy_catalog tlg_catalog languages,
        (row.coverage = "bot" ↔
          ((row.author_id, row.work_id)
              ∈ (_collect_works legacy_catalog (normLangSet languages)).map Prod.fst ∧
           (row.author_id, row.work_id)
              ∈ (_collect_works tlg_catalog (normLangSet languages)).map Prod.fst))
        ∧ (row.coverage = "tlg" ↔
          ((row.author_id, row.work_id)
              ∉ (_collect_works legacy_catalog (normLangSet languages)).map Prod.fst ∧
           (row.author_id, row.work_id)
              ∈ (_collect_works tlg_catalog (normLangSet languages)).map Prod.fst))
        ∧ (row.coverage = "leg" ↔
          ((row.author_id, row.work_id)
              ∈ (_collect_works legacy_catalog (normLangSet languages)).map Prod.fst ∧
           (row.author_id, row.work_id)
              ∉ (_collect_works tlg_catalog (normLangSet languages)).map Prod.fst))) := by
  obtain ⟨hLnodup, hLinv⟩ := collect_works_invariant legacy_catalog (normLangSet languages)
  obtain ⟨hTnodup, hTinv⟩ := collect_works_invariant tlg_catalog (normLangSet languages)
  set LW := _collect_works legacy_catalog (normLangSet languages) with hLWdef
  set TW := _collect_works tlg_catalog (normLangSet languages) with hTWdef
  set allKeys := (LW.map Prod.fst ++ TW.map Prod.fst).dedup with hAKdef
  have hrows : generate_coverage_rows legacy_catalog tlg_catalog languages
      = (allKeys.mergeSort keyLe).map (coverageRowFor LW TW) := rfl
  have hperm : List.Perm (allKeys.mergeSort keyLe) allKeys :=
    List.mergeSort_perm allKeys keyLe
  have hnodup : allKeys.Nodup := List.nodup_dedup _
  have hmemAK : ∀ key : String × String,
      key ∈ allKeys ↔ (key ∈ LW.map Prod.fst ∨ key ∈ TW.map Prod.fst) := by
    intro key
    rw [hAKdef, List.mem_dedup, List.mem_append]
  refine ⟨?_, ?_, ?_⟩
  · rw [hrows, List.length_map, hperm.length_eq, hAKdef,
      ← List.card_toFinset, List.toFinset_append]
  · intro key hkey
    rw [hrows, ← List.countP_eq_length_filter]
    rw [List.countP_map]
    have hcongr : ∀ k' ∈ allKeys.mergeSort keyLe,
        (((fun row => decide ((row.author_id, row.work_id) = key)) ∘
          coverageRowFor LW TW) k' = true
        ↔ (fun x => decide (x = key)) k' = true) := by
      intro k' hk'
      have hk'A : k' ∈ allKeys := hperm.mem_iff.mp hk'
      obtain ⟨hf1, hf2, -⟩ := coverageRowFor_spec LW TW hLinv hTinv k'
        ((hmemAK k').mp hk'A)
      simp [hf1, hf2]
    rw [List.countP_congr hcongr]
    rw [hperm.countP_eq]
    exact countP_eq_one_of_nodup_mem allKeys hnodup key ((hmemAK key).mpr hkey)
  · intro row hrow
    rw [hrows] at hrow
    obtain ⟨key, hkmem, rfl⟩ := List.mem_map.mp hrow
    have hkA : key ∈ allKeys := hperm.mem_iff.mp hkmem
    obtain ⟨hf1, hf2, hbot, htlg, hleg⟩ := coverageRowFor_spec LW TW hLinv hTinv key
      ((hmemAK key).mp hkA)
    have hpair : ((coverageRowFor LW TW key).author_id,
        (coverageRowFor LW TW key).work_id) = key := by
      rw [hf1, hf2]
    rw [hpair]
    exact ⟨hbot, htlg, hleg⟩

/-- Witness for C4 on concrete one-work catalogues: the shared work is
labelled `bot` and counted once. -/
theorem generate_coverage_rows_spec_witness :
    ((generate_coverage_rows
        [("0001", ⟨some "Auctor", some [("001", ⟨some "grc", some "Opus"⟩)]⟩)]
        [("0001", ⟨some "Auctor", some [("001", ⟨some "grc", some "Opus"⟩)]⟩),
         ("0002", ⟨some "Alter", some [("003", ⟨some "grc", some "Liber"⟩)]⟩)]
        (some ["grc"])).filter
      (fun row => decide ((row.author_id, row.work_id) = ("0002", "003")))).length = 1 := by
  have h := (generate_coverage_rows_spec
    [("0001", ⟨some "Auctor", some [("001", ⟨some "grc", some "Opus"⟩)]⟩)]
    [("0001", ⟨some "Auctor", some [("001", ⟨some "grc", some "Opus"⟩)]⟩),
     ("0002", ⟨some "Alter", some [("003", ⟨some "grc", some "Liber"⟩)]⟩)]
    (some ["grc"])).2.1 ("0002", "003") (Or.inr (by decide))
  exact h

end OpenGreek
